import Mathlib

/-!
Verification of the task-table core: line classifier, hierarchy scanner,
parse cache, rule compiler, grouping engine and subtree relocation engine.

The development shallowly embeds the TypeScript sources:
* `src/utils/text.ts` (the shared text helpers, named `...Text` here where a
  second variant of the same helper exists inside `src/views/TaskTableView.ts`),
* `src/views/TaskTableView.ts` (relocation engine: `relocateSubtree`,
  `moveSubtreeToFileEnd`, `deleteSubtree`, `lineWithDepth`, `getIndentDepth`),
* `src/data/scan.ts` (scanner, parse cache, rule compiler, grouping engine).

A document line is a list of characters (the host splits file content on
`"\n"`).  JavaScript regular expressions over such lines are embedded by
structural pattern matching; `\s` is the JS white-space class and `.` is
"any character except a line terminator".
-/

namespace TaskTable

/-- A single document line (the result of splitting file content on `"\n"`). -/
abbrev Line := List Char

/-- JS `\s` (the `WhiteSpace` ∪ `LineTerminator` character class used by
`RegExp`, also the class trimmed by `String.prototype.trim`). -/
def isWS (c : Char) : Bool :=
  let v := c.val
  v = 0x20 || v = 0x09 || v = 0x0a || v = 0x0b || v = 0x0c || v = 0x0d ||
  v = 0xa0 || v = 0x1680 || (0x2000 ≤ v && v ≤ 0x200a) ||
  v = 0x2028 || v = 0x2029 || v = 0x202f || v = 0x205f || v = 0x3000 || v = 0xfeff

/-- JS line terminators: the characters NOT matched by `.` in a regex. -/
def isLineTerm (c : Char) : Bool :=
  c.val = 0x0a || c.val = 0x0d || c.val = 0x2028 || c.val = 0x2029

/-- JS `.`: any character except a line terminator. -/
def dotChar (c : Char) : Bool := !isLineTerm c

/-- The bullet class `[-*]`. -/
def isBullet (c : Char) : Bool := c = '-' || c = '*'

/-- The checkbox-state class `[ xX]`. -/
def isCheckChar (c : Char) : Bool := c = ' ' || c = 'x' || c = 'X'

/-- Shape of the fragment `[-*]\s\[[ xX]\]\s` at the head of a list:
bullet, one white-space, `[`, state char, `]`, one white-space. -/
def restShapeOk : Line → Bool
  | b :: s1 :: lb :: c :: rb :: s2 :: _ =>
      isBullet b && isWS s1 && (lb = '[') && isCheckChar c && (rb = ']') && isWS s2
  | _ => false

/-- `TASK_RX.test(line)` for `TASK_RX = /^\s*[-*]\s\[[ xX]\]\s.+/`
(`src/utils/text.ts`; the same literal regex recurs in `TaskTableView.ts`).
`\s*` greedily takes the maximal white-space prefix (no white-space char is a
bullet, so no backtracking alternative exists) and `.+` only requires the
first payload character to be `.`-matchable, since `test` is not end-anchored. -/
def taskTest (cs : Line) : Bool :=
  let r := cs.dropWhile isWS
  restShapeOk r &&
    (match r.drop 6 with
     | [] => false
     | c :: _ => dotChar c)

/-- Success of `line.match(/^(\s*)([-*]\s\[[ xX]\]\s)(.+)$/)` (the rewrite
regex `m` in both `lineWithDepth` variants).  Because of the end anchor `$`,
every payload character must be matched by `.`, i.e. be a non-terminator,
and the payload must be non-empty. -/
def fullMatchOk (cs : Line) : Bool :=
  let r := cs.dropWhile isWS
  restShapeOk r && !(r.drop 6).isEmpty && (r.drop 6).all dotChar

/-- `String.prototype.trim`: strip JS white space from both ends. -/
def trimJS (cs : Line) : Line :=
  ((cs.dropWhile isWS).reverse.dropWhile isWS).reverse

/-- Success of `line.match(/^(\s*)[-*]\s\[[ xX]\]\s/)` — the prefix-only
matcher used by both `getIndentDepth` variants (no payload requirement). -/
def taskPrefixOk (cs : Line) : Bool := restShapeOk (cs.dropWhile isWS)

/-- `getIndentDepth` from `src/views/TaskTableView.ts` (lines 77-82):
`m[1]` is the maximal leading white-space run; tabs are replaced by two
spaces, the resulting length halved (floor) and 1 added. -/
def getIndentDepth (line : Line) : Nat :=
  if taskPrefixOk line then
    let lead := line.takeWhile isWS
    let expanded := lead.length + (lead.filter (fun c => c = '\t')).length
    1 + expanded / 2
  else 1

/-- `getIndentDepth` from `src/utils/text.ts`: counts leading tabs, removes
them, and adds one level per full two remaining white-space characters. -/
def getIndentDepthText (line : Line) : Nat :=
  if taskPrefixOk line then
    let lead := line.takeWhile isWS
    let tabs := (lead.filter (fun c => c = '\t')).length
    let spaces := (lead.filter (fun c => !(c = '\t'))).length
    1 + tabs + spaces / 2
  else 1

/-- The checkbox state char extracted by the fallback matcher `m2` of
`lineWithDepth` (`( |x|X)` is the fourth character after the white-space
prefix), lower-cased and compared against `x`. -/
def fallbackChecked (cs : Line) : Bool :=
  match ((cs.dropWhile isWS).drop 3).head? with
  | some c => c.toLower = 'x'
  | none => false

/-- `lineWithDepth` from `src/views/TaskTableView.ts` (lines 877-885): indent
is `"  ".repeat(max(0, newDepth-1))`.  On a full match the matched fragment
`m[2] ++ m[3]` is re-emitted verbatim after the fresh indent; the fragment is
exactly the line minus its leading white space.  The fallback matcher `m2`
has the same matching condition as `m` (identical pattern shape), so in the
else-branch it never succeeds: `checked` falls back to `false` and `text` to
`originalLine.trim()`. -/
def lineWithDepth (originalLine : Line) (newDepth : Nat) : Line :=
  let indent : Line := List.replicate (2 * (newDepth - 1)) ' '
  if fullMatchOk originalLine then indent ++ originalLine.dropWhile isWS
  else
    let m2 := fullMatchOk originalLine
    let checked := m2 && fallbackChecked originalLine
    let text := if m2 then (originalLine.dropWhile isWS).drop 6 else trimJS originalLine
    indent ++ ('-' :: ' ' :: '[' :: (if checked then 'x' else ' ') :: ']' :: ' ' :: text)

/-- `lineWithDepth` from `src/utils/text.ts` (the variant used by the modular
move engine in `src/ui`): identical except that the indent is
`"\t".repeat(max(0, newDepth-1))`. -/
def lineWithDepthText (originalLine : Line) (newDepth : Nat) : Line :=
  let indent : Line := List.replicate (newDepth - 1) '\t'
  if fullMatchOk originalLine then indent ++ originalLine.dropWhile isWS
  else
    let m2 := fullMatchOk originalLine
    let checked := m2 && fallbackChecked originalLine
    let text := if m2 then (originalLine.dropWhile isWS).drop 6 else trimJS originalLine
    indent ++ ('-' :: ' ' :: '[' :: (if checked then 'x' else ' ') :: ']' :: ' ' :: text)

/-- Helper to write concrete lines from string literals, used in witnesses. -/
def strLine (s : String) : Line := s.data

/-! ### Basic facts about the classifier -/

theorem isBullet_not_ws {c : Char} (h : isBullet c = true) : isWS c = false := by
  unfold isBullet at h
  rcases Bool.or_eq_true_iff.mp h with h1 | h1 <;>
    simp only [decide_eq_true_eq] at h1 <;> subst h1 <;> decide

theorem restShapeOk_cons {r : Line} (h : restShapeOk r = true) :
    ∃ b t, r = b :: t ∧ isWS b = false := by
  rcases r with _ | ⟨b, _ | ⟨s1, _ | ⟨lb, _ | ⟨c, _ | ⟨rb, _ | ⟨s2, t⟩⟩⟩⟩⟩⟩ <;>
    simp [restShapeOk, Bool.and_eq_true] at h
  exact ⟨b, _, rfl, isBullet_not_ws h.1.1.1.1.1⟩

theorem dropWhile_ws_replicate (c : Char) (hc : isWS c = true) (n : Nat) (r : Line) :
    (List.replicate n c ++ r).dropWhile isWS = r.dropWhile isWS := by
  induction n with
  | zero => rfl
  | succ n ih => simp [List.replicate_succ, List.dropWhile_cons, hc, ih]

theorem takeWhile_ws_replicate (c : Char) (hc : isWS c = true) (n : Nat) (r : Line) :
    (List.replicate n c ++ r).takeWhile isWS = List.replicate n c ++ r.takeWhile isWS := by
  induction n with
  | zero => rfl
  | succ n ih => simp [List.replicate_succ, List.takeWhile_cons, hc, ih]

theorem dropWhile_not_ws_head {r : Line} (h : restShapeOk r = true) :
    r.dropWhile isWS = r := by
  obtain ⟨b, t, rfl, hb⟩ := restShapeOk_cons h
  simp [List.dropWhile_cons, hb]

theorem takeWhile_not_ws_head {r : Line} (h : restShapeOk r = true) :
    r.takeWhile isWS = [] := by
  obtain ⟨b, t, rfl, hb⟩ := restShapeOk_cons h
  simp [List.takeWhile_cons, hb]

theorem restShapeOk_of_fullMatchOk {cs : Line} (h : fullMatchOk cs = true) :
    restShapeOk (cs.dropWhile isWS) = true := by
  unfold fullMatchOk at h
  exact ((Bool.and_eq_true_iff.mp ((Bool.and_eq_true_iff.mp h).1)).1)

theorem restShapeOk_of_taskTest {cs : Line} (h : taskTest cs = true) :
    restShapeOk (cs.dropWhile isWS) = true := by
  unfold taskTest at h
  exact (Bool.and_eq_true_iff.mp h).1

/-- When a line passes `TASK_RX` and contains no line terminator, the
end-anchored rewrite regex of `lineWithDepth` matches as well. -/
theorem fullMatchOk_of_taskTest {cs : Line} (h : taskTest cs = true)
    (hterm : ∀ c ∈ cs, isLineTerm c = false) : fullMatchOk cs = true := by
  unfold taskTest at h
  rcases Bool.and_eq_true_iff.mp h with ⟨hshape, hrest⟩
  unfold fullMatchOk
  refine Bool.and_eq_true_iff.mpr ⟨Bool.and_eq_true_iff.mpr ⟨hshape, ?_⟩, ?_⟩
  · revert hrest
    cases (cs.dropWhile isWS).drop 6 with
    | nil => intro hr; exact absurd hr (by simp)
    | cons c t => intro _; simp
  · refine List.all_eq_true.mpr (fun c hc => ?_)
    have hcs : c ∈ cs :=
      (List.dropWhile_sublist (p := isWS) (l := cs)).subset
        ((List.drop_sublist 6 (cs.dropWhile isWS)).subset hc)
    unfold dotChar
    simp [hterm c hcs]

theorem lineWithDepth_eq_of_match {cs : Line} (h : fullMatchOk cs = true) (d : Nat) :
    lineWithDepth cs d = List.replicate (2 * (d - 1)) ' ' ++ cs.dropWhile isWS := by
  unfold lineWithDepth
  simp [h]

theorem lineWithDepthText_eq_of_match {cs : Line} (h : fullMatchOk cs = true) (d : Nat) :
    lineWithDepthText cs d = List.replicate (d - 1) '\t' ++ cs.dropWhile isWS := by
  unfold lineWithDepthText
  simp [h]

theorem dropWhile_lineWithDepth {cs : Line} (h : fullMatchOk cs = true) (d : Nat) :
    (lineWithDepth cs d).dropWhile isWS = cs.dropWhile isWS := by
  rw [lineWithDepth_eq_of_match h, dropWhile_ws_replicate ' ' (by decide),
    dropWhile_not_ws_head (restShapeOk_of_fullMatchOk h)]

theorem takeWhile_lineWithDepth {cs : Line} (h : fullMatchOk cs = true) (d : Nat) :
    (lineWithDepth cs d).takeWhile isWS = List.replicate (2 * (d - 1)) ' ' := by
  rw [lineWithDepth_eq_of_match h, takeWhile_ws_replicate ' ' (by decide),
    takeWhile_not_ws_head (restShapeOk_of_fullMatchOk h), List.append_nil]

theorem dropWhile_lineWithDepthText {cs : Line} (h : fullMatchOk cs = true) (d : Nat) :
    (lineWithDepthText cs d).dropWhile isWS = cs.dropWhile isWS := by
  rw [lineWithDepthText_eq_of_match h, dropWhile_ws_replicate '\t' (by decide),
    dropWhile_not_ws_head (restShapeOk_of_fullMatchOk h)]

theorem takeWhile_lineWithDepthText {cs : Line} (h : fullMatchOk cs = true) (d : Nat) :
    (lineWithDepthText cs d).takeWhile isWS = List.replicate (d - 1) '\t' := by
  rw [lineWithDepthText_eq_of_match h, takeWhile_ws_replicate '\t' (by decide),
    takeWhile_not_ws_head (restShapeOk_of_fullMatchOk h), List.append_nil]

theorem getIndentDepth_pos (line : Line) : 1 ≤ getIndentDepth line := by
  unfold getIndentDepth
  split
  · exact Nat.le_add_right 1 _
  · exact Nat.le_refl 1

theorem getIndentDepthText_pos (line : Line) : 1 ≤ getIndentDepthText line := by
  unfold getIndentDepthText
  split
  · exact le_trans (Nat.le_add_right 1 _) (Nat.le_add_right _ _)
  · exact Nat.le_refl 1

/-! ### Relocation engine (`src/views/TaskTableView.ts`)

Documents are handled as the line arrays the code manipulates
(`content.split("\n")`); `vault.modify(file, lines.join("\n"))` persists the
join, and re-reading splits it back to the same array as long as no line
contains a `"\n"` character. -/

/-- JS `Array.prototype.splice(start, count)` (removal part). -/
def spliceRemove (l : List α) (start count : Nat) : List α :=
  l.take start ++ l.drop (start + count)

/-- JS `Array.prototype.splice(start, 0, ...items)` (pure insertion). -/
def spliceInsert (l : List α) (start : Nat) (items : List α) : List α :=
  l.take start ++ items ++ l.drop start

/-- `lines.join("\n")` as a character list. -/
def joinLines (ls : List Line) : Line := List.intercalate (List.cons '\n' List.nil) ls

/-- `out.endsWith("\n")`. -/
def endsWithNewline (cs : Line) : Bool := cs.getLast? = some '\n'

/-- Number of lines following `start` that continue the subtree block: the
scan of `relocateSubtree` / `moveSubtreeToFileEnd` / `deleteSubtree` walks
forward while each line is a task line of depth strictly greater than the
block root's depth `d`, i.e. it stops at the first non-task line or the
first task line with depth `≤ d`. -/
def blockTailLen (d : Nat) : List Line → Nat
  | [] => 0
  | ln :: rest =>
      if taskTest ln && decide (d < getIndentDepth ln) then blockTailLen d rest + 1 else 0

/-- The inclusive end index of the extracted block `[start, end]`. -/
def blockEnd (lines : List Line) (start : Nat) (d : Nat) : Nat :=
  start + blockTailLen d (lines.drop (start + 1))

/-- The per-line depth rewrite applied to each line of the extracted block
(the `map` callback in `relocateSubtree` / `moveSubtreeToFileEnd`): non-task
lines pass through unchanged, task lines are re-emitted at depth
`max(1, originalDepth + depthDelta)`. -/
def adjustLine (depthDelta : Int) (ln : Line) : Line :=
  if taskTest ln then
    let d := getIndentDepth ln
    let nd := max 1 ((d : Int) + depthDelta)
    lineWithDepth ln nd.toNat
  else ln

/-- `relocateSubtree` from `src/views/TaskTableView.ts` (lines 914-971) at the
line level.  `origLine` models `source.originalLine` (the `??` fallback used
when `start` is out of bounds), `sameFile` models
`srcFile.path === destFile.path`, and `destLines` is the destination document
read when the destination is a different file.  Returns the persisted source
and destination line arrays. -/
def relocateSubtree (srcLines : List Line) (origLine : Line) (start : Nat)
    (sameFile : Bool) (destLines : List Line) (insertAt : Nat) (newDepth : Nat) :
    List Line × List Line :=
  let srcDepth := getIndentDepth (srcLines.getD start origLine)
  let e := blockEnd srcLines start srcDepth
  let blockLen := e - start + 1
  let depthDelta : Int := (newDepth : Int) - (srcDepth : Int)
  let adjustedBlock := ((srcLines.drop start).take (e + 1 - start)).map (adjustLine depthDelta)
  let srcAfter := spliceRemove srcLines start blockLen
  let ins1 : Int := if sameFile && decide (start < insertAt) then (insertAt : Int) - blockLen else insertAt
  let dest0 := if sameFile then srcAfter else destLines
  let k : Nat := (max 0 (min (dest0.length : Int) ins1)).toNat
  (srcAfter, spliceInsert dest0 k adjustedBlock)

/-- `moveSubtreeToFileEnd` from `src/views/TaskTableView.ts` (lines
1382-1428): same block extraction and depth adjustment, source block spliced
out, block appended to the destination before a single trailing empty line if
one exists, and the written destination content gets a final `"\n"` appended
when the joined text does not already end with one (which, at the line level,
appends one empty line). -/
def moveSubtreeToFileEnd (srcLines : List Line) (origLine : Line) (start : Nat)
    (destLines : List Line) (newDepth : Nat) : List Line × List Line :=
  let srcDepth := getIndentDepth (srcLines.getD start origLine)
  let e := blockEnd srcLines start srcDepth
  let block := (srcLines.drop start).take (e + 1 - start)
  let depthDelta : Int := (newDepth : Int) - (srcDepth : Int)
  let adjusted := block.map (adjustLine depthDelta)
  let srcAfter := srcLines.take start ++ srcLines.drop (e + 1)
  let insertAt :=
    if 0 < destLines.length && decide (destLines.getLast? = some []) then
      destLines.length - 1
    else destLines.length
  let dSpliced := spliceInsert destLines insertAt adjusted
  let destAfter := if endsWithNewline (joinLines dSpliced) then dSpliced else dSpliced ++ [[]]
  (srcAfter, destAfter)

/-- `deleteSubtree` from `src/views/TaskTableView.ts` (lines 1204-1231): if
the row's line index is in bounds and holds a task line, the block
`[start, end]` is spliced out; otherwise the document is left unchanged. -/
def deleteSubtree (lines : List Line) (origLine : Line) (start : Nat) : List Line :=
  if start < lines.length then
    let base := lines.getD start origLine
    if taskTest base then
      let d := getIndentDepth base
      let e := blockEnd lines start d
      spliceRemove lines start (e - start + 1)
    else lines
  else lines

/-! ### Block extraction facts -/

theorem blockTailLen_le (d : Nat) (l : List Line) : blockTailLen d l ≤ l.length := by
  induction l with
  | nil => exact Nat.le_refl 0
  | cons ln rest ih =>
      unfold blockTailLen
      split
      · simpa using Nat.succ_le_succ ih
      · simp

theorem blockTailLen_sat (d : Nat) (l : List Line) :
    ∀ j, j < blockTailLen d l →
      taskTest (l.getD j []) = true ∧ d < getIndentDepth (l.getD j []) := by
  induction l with
  | nil => intro j hj; simp [blockTailLen] at hj
  | cons ln rest ih =>
      intro j hj
      unfold blockTailLen at hj
      split at hj
      · rename_i hcond
        rcases Bool.and_eq_true_iff.mp hcond with ⟨h1, h2⟩
        cases j with
        | zero => exact ⟨h1, by simpa using of_decide_eq_true h2⟩
        | succ j => exact ih j (Nat.lt_of_succ_lt_succ hj)
      · omega

theorem blockTailLen_stop (d : Nat) (l : List Line)
    (h : blockTailLen d l < l.length) :
    ¬(taskTest (l.getD (blockTailLen d l) []) = true ∧
      d < getIndentDepth (l.getD (blockTailLen d l) [])) := by
  induction l with
  | nil => simp [blockTailLen] at h
  | cons ln rest ih =>
      unfold blockTailLen
      unfold blockTailLen at h
      simp only [List.length_cons] at h
      split
      · rename_i hcond
        split at h
        · simpa using ih (by omega)
        · rename_i hcond2; exact absurd hcond hcond2
      · rename_i hcond
        intro hc
        exact hcond (by
          simp only [List.getD_cons_zero] at hc
          exact Bool.and_eq_true_iff.mpr ⟨hc.1, decide_eq_true hc.2⟩)

/-! ### Length facts for splices -/

theorem spliceInsert_length (l : List α) (k : Nat) (items : List α) :
    (spliceInsert l k items).length = l.length + items.length := by
  unfold spliceInsert
  simp [List.length_append, List.length_take, List.length_drop]
  omega

theorem spliceRemove_length (l : List α) (start count : Nat)
    (h : start + count ≤ l.length) :
    (spliceRemove l start count).length = l.length - count := by
  unfold spliceRemove
  simp [List.length_append, List.length_take, List.length_drop]
  omega


/-! ### Depth-adjust facts -/

theorem adjustLine_not_task {ln : Line} (h : taskTest ln = false) (delta : Int) :
    adjustLine delta ln = ln := by
  unfold adjustLine
  simp [h]

theorem adjustLine_dropWhile {ln : Line} (hterm : ∀ c ∈ ln, isLineTerm c = false)
    (delta : Int) : (adjustLine delta ln).dropWhile isWS = ln.dropWhile isWS := by
  unfold adjustLine
  by_cases htask : taskTest ln = true
  · simp only [htask, if_true]
    exact dropWhile_lineWithDepth (fullMatchOk_of_taskTest htask hterm) _
  · have h0 : taskTest ln = false := by simpa using htask
    simp [h0]

theorem adjustLine_zero {ln : Line} (htask : taskTest ln = true)
    (hterm : ∀ c ∈ ln, isLineTerm c = false)
    (hcanon : ln.takeWhile isWS = List.replicate (2 * (getIndentDepth ln - 1)) ' ') :
    adjustLine 0 ln = ln := by
  unfold adjustLine
  simp only [htask, if_true]
  have hd := getIndentDepth_pos ln
  have hnd : (max 1 ((getIndentDepth ln : Int) + 0)).toNat = getIndentDepth ln := by omega
  rw [hnd, lineWithDepth_eq_of_match (fullMatchOk_of_taskTest htask hterm), ← hcanon,
    List.takeWhile_append_dropWhile]

/-- C2 counterexample: rewriting the block `["\t- [ ] a"]` with depth delta 0
(its original depth is 2 and `max(1, 2+0) = 2`) normalizes the tab indent into
two spaces, so the block is NOT byte-identical to its input. -/
theorem depth_adjust_zero_not_id :
    [strLine "\t- [ ] a"].map (adjustLine 0) ≠ [strLine "\t- [ ] a"] ∧
    [strLine "\t- [ ] a"].map (adjustLine 0) = [strLine "  - [ ] a"] := by
  constructor
  · decide
  · decide

/-- C2 (amended): applying the depth-adjust subroutine with `depthDelta = 0`
leaves every line of the block byte-identical to its input, provided every
task line's leading indentation is already in the canonical 2-space-per-level
form and no line contains a carriage return or other line-terminator
character.  (Non-task lines always pass through unchanged.) -/
theorem depth_adjust_zero_id (block : List Line)
    (hterm : ∀ ln ∈ block, ∀ c ∈ ln, isLineTerm c = false)
    (hcanon : ∀ ln ∈ block, taskTest ln = true →
      ln.takeWhile isWS = List.replicate (2 * (getIndentDepth ln - 1)) ' ') :
    block.map (adjustLine 0) = block := by
  induction block with
  | nil => rfl
  | cons ln rest ih =>
      have hln : adjustLine 0 ln = ln := by
        by_cases htask : taskTest ln = true
        · exact adjustLine_zero htask (hterm ln (by simp)) (hcanon ln (by simp) htask)
        · exact adjustLine_not_task (by simpa using htask) 0
      simp only [List.map_cons, hln]
      have := ih (fun l hl => hterm l (by simp [hl])) (fun l hl => hcanon l (by simp [hl]))
      rw [this]

/-- C2 witness. -/
theorem depth_adjust_zero_id_witness :
    (∀ ln ∈ [strLine "- [ ] a", strLine "  - [x] b"], ∀ c ∈ ln, isLineTerm c = false) ∧
    (∀ ln ∈ [strLine "- [ ] a", strLine "  - [x] b"], taskTest ln = true →
      ln.takeWhile isWS = List.replicate (2 * (getIndentDepth ln - 1)) ' ') ∧
    [strLine "- [ ] a", strLine "  - [x] b"].map (adjustLine 0) =
      [strLine "- [ ] a", strLine "  - [x] b"] :=
  ⟨by decide, by decide,
    depth_adjust_zero_id [strLine "- [ ] a", strLine "  - [x] b"] (by decide) (by decide)⟩

/-- C3 counterexample: the `utils/text.ts` depth rewrite (used by the modular
move engine) emits a tab per level, not the canonical 2-space-per-level
indentation: at depth 2 the leading indentation of its output is one tab,
not two spaces. -/
theorem depth_rewrite_not_two_space :
    (lineWithDepthText (strLine "- [ ] a") 2).takeWhile isWS ≠
      List.replicate (2 * (2 - 1)) ' ' ∧
    lineWithDepthText (strLine "- [ ] a") 2 = strLine "\t- [ ] a" := by
  constructor
  · decide
  · decide

/-- C3 (amended): for every task line free of line-terminator characters and
every target depth `d ≥ 1`, the `TaskTableView` depth rewrite emits exactly
`2*(d-1)` leading spaces and the `utils/text` depth rewrite emits exactly
`d-1` leading tabs; in both, everything after the leading indentation
(bullet marker, checkbox state and payload text) is preserved verbatim. -/
theorem depth_rewrite_canonical (ln : Line) (d : Nat) (htask : taskTest ln = true)
    (hterm : ∀ c ∈ ln, isLineTerm c = false) (_hd : 1 ≤ d) :
    (lineWithDepth ln d).takeWhile isWS = List.replicate (2 * (d - 1)) ' ' ∧
    (lineWithDepth ln d).dropWhile isWS = ln.dropWhile isWS ∧
    (lineWithDepthText ln d).takeWhile isWS = List.replicate (d - 1) '\t' ∧
    (lineWithDepthText ln d).dropWhile isWS = ln.dropWhile isWS := by
  have hm := fullMatchOk_of_taskTest htask hterm
  exact ⟨takeWhile_lineWithDepth hm d, dropWhile_lineWithDepth hm d,
    takeWhile_lineWithDepthText hm d, dropWhile_lineWithDepthText hm d⟩

/-- C3 witness. -/
theorem depth_rewrite_canonical_witness :
    (taskTest (strLine "\t- [x] hi") = true ∧ 1 ≤ 3) ∧
    ((lineWithDepth (strLine "\t- [x] hi") 3).takeWhile isWS = List.replicate (2 * (3 - 1)) ' ' ∧
     (lineWithDepth (strLine "\t- [x] hi") 3).dropWhile isWS = (strLine "\t- [x] hi").dropWhile isWS ∧
     (lineWithDepthText (strLine "\t- [x] hi") 3).takeWhile isWS = List.replicate (3 - 1) '\t' ∧
     (lineWithDepthText (strLine "\t- [x] hi") 3).dropWhile isWS = (strLine "\t- [x] hi").dropWhile isWS) :=
  ⟨⟨by decide, by decide⟩,
    depth_rewrite_canonical (strLine "\t- [x] hi") 3 (by decide) (by decide) (by decide)⟩

/-! ### C5: block extraction -/

theorem getD_drop (l : List α) (n j : Nat) (dflt : α) :
    (l.drop n).getD j dflt = l.getD (n + j) dflt := by
  simp [List.getD_eq_getElem?_getD, List.getElem?_drop]

/-- The conclusion of claim C5: the scan from `start + 1` includes exactly
the maximal contiguous run of task lines of depth strictly greater than the
root's depth, stopping at (and excluding) the first line that is not a task
line or not strictly deeper; `deleteSubtree` splices out exactly the block
`[start, end]`. -/
def ExtractBlockSpec (lines : List Line) (origLine : Line) (start : Nat) : Prop :=
  let d := getIndentDepth (lines.getD start origLine)
  let e := blockEnd lines start d
  start ≤ e ∧ e < lines.length ∧
  (∀ i, start < i → i ≤ e →
    taskTest (lines.getD i []) = true ∧ d < getIndentDepth (lines.getD i [])) ∧
  (e + 1 < lines.length →
    ¬(taskTest (lines.getD (e + 1) []) = true ∧
      d < getIndentDepth (lines.getD (e + 1) []))) ∧
  deleteSubtree lines origLine start = spliceRemove lines start (e - start + 1)

/-- C5: for every document line array and every in-bounds start index holding
a task line of depth `d`, the extract-block subroutine returns the inclusive
range `[start, end]` where lines `start+1 .. end` are exactly the maximal
contiguous run of task lines of depth strictly greater than `d`; the scan
stops at (and excludes) the first non-task line or the first task line of
depth `≤ d`, whichever comes first. -/
theorem extract_block_spec (lines : List Line) (origLine : Line) (start : Nat)
    (h1 : start < lines.length)
    (h2 : taskTest (lines.getD start origLine) = true) :
    ExtractBlockSpec lines origLine start := by
  unfold ExtractBlockSpec
  have htail := blockTailLen_le (getIndentDepth (lines.getD start origLine))
    (lines.drop (start + 1))
  simp only [List.length_drop] at htail
  refine ⟨Nat.le_add_right _ _, by unfold blockEnd; omega, ?_, ?_, ?_⟩
  · intro i hi1 hi2
    unfold blockEnd at hi2
    have hj := blockTailLen_sat (getIndentDepth (lines.getD start origLine))
      (lines.drop (start + 1)) (i - (start + 1)) (by omega)
    rwa [getD_drop, Nat.add_sub_cancel' (by omega : start + 1 ≤ i)] at hj
  · intro hlt
    unfold blockEnd at hlt ⊢
    have hstop := blockTailLen_stop (getIndentDepth (lines.getD start origLine))
      (lines.drop (start + 1)) (by simp only [List.length_drop]; omega)
    rwa [getD_drop, show start + 1 + blockTailLen (getIndentDepth (lines.getD start origLine))
      (lines.drop (start + 1)) = start + blockTailLen (getIndentDepth (lines.getD start origLine))
      (lines.drop (start + 1)) + 1 by omega] at hstop
  · simp only [deleteSubtree, h1, if_true, h2]

/-- C5 witness. -/
theorem extract_block_spec_witness :
    (0 < [strLine "- [ ] a", strLine "  - [ ] b", strLine "hello"].length ∧
     taskTest ([strLine "- [ ] a", strLine "  - [ ] b", strLine "hello"].getD 0 []) = true) ∧
    ExtractBlockSpec [strLine "- [ ] a", strLine "  - [ ] b", strLine "hello"] [] 0 :=
  ⟨⟨by decide, by decide⟩,
    extract_block_spec [strLine "- [ ] a", strLine "  - [ ] b", strLine "hello"] [] 0
      (by decide) (by decide)⟩


/-! ### Observers for the relocation pipeline (used in theorem statements) -/

/-- `end - start + 1`, the extracted block length. -/
def blockLenOf (s : List Line) (o : Line) (st : Nat) : Nat :=
  blockEnd s st (getIndentDepth (s.getD st o)) - st + 1

/-- `srcLines.slice(start, end + 1)`, the extracted block. -/
def blockOf (s : List Line) (o : Line) (st : Nat) : List Line :=
  (s.drop st).take (blockEnd s st (getIndentDepth (s.getD st o)) + 1 - st)

/-- The depth-adjusted block. -/
def adjustedOf (s : List Line) (o : Line) (st : Nat) (nd : Nat) : List Line :=
  (blockOf s o st).map (adjustLine ((nd : Int) - (getIndentDepth (s.getD st o) : Int)))

/-- The source document after the block is spliced out. -/
def srcAfterOf (s : List Line) (o : Line) (st : Nat) : List Line :=
  spliceRemove s st (blockLenOf s o st)

/-- The computed insertion index before clamping: shifted down by the removed
block length exactly when moving within one document and the original
insertion point is strictly greater than the removed block's start. -/
def relocShiftedIndex (st ia blockLen : Nat) (sameFile : Bool) : Int :=
  if sameFile && decide (st < ia) then (ia : Int) - blockLen else ia

/-- `Math.max(0, Math.min(len, i))`, then converted to an array index. -/
def clampIndex (len : Nat) (i : Int) : Nat := (max 0 (min (len : Int) i)).toNat

theorem relocateSubtree_fst (s : List Line) (o : Line) (st : Nat) (sf : Bool)
    (dl : List Line) (ia nd : Nat) :
    (relocateSubtree s o st sf dl ia nd).1 = srcAfterOf s o st := rfl

theorem relocateSubtree_snd (s : List Line) (o : Line) (st : Nat) (sf : Bool)
    (dl : List Line) (ia nd : Nat) :
    (relocateSubtree s o st sf dl ia nd).2 =
      spliceInsert (if sf then srcAfterOf s o st else dl)
        (clampIndex (if sf then srcAfterOf s o st else dl).length
          (relocShiftedIndex st ia (blockLenOf s o st) sf))
        (adjustedOf s o st nd) := rfl

/-- The append-at-end insertion index: end of document, or just before a
single trailing empty line. -/
def moveInsertAt (dl : List Line) : Nat :=
  if 0 < dl.length && decide (dl.getLast? = some []) then dl.length - 1 else dl.length

theorem moveSubtreeToFileEnd_fst (s : List Line) (o : Line) (st : Nat)
    (dl : List Line) (nd : Nat) :
    (moveSubtreeToFileEnd s o st dl nd).1 =
      s.take st ++ s.drop (blockEnd s st (getIndentDepth (s.getD st o)) + 1) := rfl

theorem moveSubtreeToFileEnd_snd (s : List Line) (o : Line) (st : Nat)
    (dl : List Line) (nd : Nat) :
    (moveSubtreeToFileEnd s o st dl nd).2 =
      (if endsWithNewline (joinLines (spliceInsert dl (moveInsertAt dl) (adjustedOf s o st nd)))
       then spliceInsert dl (moveInsertAt dl) (adjustedOf s o st nd)
       else spliceInsert dl (moveInsertAt dl) (adjustedOf s o st nd) ++ [[]]) := rfl

theorem blockLenOf_eq (s : List Line) (o : Line) (st : Nat) :
    blockLenOf s o st =
      blockTailLen (getIndentDepth (s.getD st o)) (s.drop (st + 1)) + 1 := by
  unfold blockLenOf blockEnd
  omega

theorem blockOf_length (s : List Line) (o : Line) (st : Nat) (h : st < s.length) :
    (blockOf s o st).length = blockLenOf s o st := by
  have htail := blockTailLen_le (getIndentDepth (s.getD st o)) (s.drop (st + 1))
  simp only [List.length_drop] at htail
  unfold blockOf blockLenOf blockEnd
  simp only [List.length_take, List.length_drop]
  omega

theorem adjustedOf_length (s : List Line) (o : Line) (st : Nat) (nd : Nat)
    (h : st < s.length) : (adjustedOf s o st nd).length = blockLenOf s o st := by
  unfold adjustedOf
  rw [List.length_map, blockOf_length s o st h]

theorem srcAfterOf_length (s : List Line) (o : Line) (st : Nat) (h : st < s.length) :
    (srcAfterOf s o st).length + blockLenOf s o st = s.length := by
  have htail := blockTailLen_le (getIndentDepth (s.getD st o)) (s.drop (st + 1))
  simp only [List.length_drop] at htail
  unfold srcAfterOf
  rw [spliceRemove_length s st (blockLenOf s o st) (by rw [blockLenOf_eq]; omega)]
  rw [blockLenOf_eq]
  omega

/-- C1 counterexample: `moveSubtreeToFileEnd` moving the one-line block
`"- [ ] a"` into a destination whose text does not end with a newline removes
1 line from the source but leaves the destination 2 lines longer (the block
plus one empty line appended by the final trailing-newline normalization). -/
theorem relocation_count_counterexample :
    moveSubtreeToFileEnd [strLine "- [ ] a", strLine "x"] [] 0 [strLine "hello"] 1 =
      ([strLine "x"], [strLine "hello", strLine "- [ ] a", []]) ∧
    [strLine "- [ ] a", strLine "x"].length -
        (moveSubtreeToFileEnd [strLine "- [ ] a", strLine "x"] [] 0 [strLine "hello"] 1).1.length ≠
      (moveSubtreeToFileEnd [strLine "- [ ] a", strLine "x"] [] 0 [strLine "hello"] 1).2.length -
        [strLine "hello"].length := by
  constructor
  · decide
  · decide

/-- The conclusion of the amended claim C1: `relocateSubtree` removes exactly
as many lines from the source as it inserts at the destination (cross-file),
and preserves the total line count when source and destination are the same
document; `moveSubtreeToFileEnd` removes the block length from the source and
grows the destination by the block length, or by the block length plus one
empty line (the trailing-newline normalization); and every line of the block
is rewritten so that everything after its leading indentation — checkbox
state and payload text — is byte-identical to its pre-move value, for any
depth delta. -/
def RelocationFrameSpec (srcLines : List Line) (origLine : Line) (start : Nat)
    (destLines : List Line) (insertAt newDepth : Nat) : Prop :=
  ((relocateSubtree srcLines origLine start false destLines insertAt newDepth).1.length
      + blockLenOf srcLines origLine start = srcLines.length) ∧
  ((relocateSubtree srcLines origLine start false destLines insertAt newDepth).2.length
      = destLines.length + blockLenOf srcLines origLine start) ∧
  ((relocateSubtree srcLines origLine start true destLines insertAt newDepth).2.length
      = srcLines.length) ∧
  ((moveSubtreeToFileEnd srcLines origLine start destLines newDepth).1.length
      + blockLenOf srcLines origLine start = srcLines.length) ∧
  ((moveSubtreeToFileEnd srcLines origLine start destLines newDepth).2.length
      = destLines.length + blockLenOf srcLines origLine start ∨
    (moveSubtreeToFileEnd srcLines origLine start destLines newDepth).2.length
      = destLines.length + blockLenOf srcLines origLine start + 1) ∧
  (∀ ln ∈ blockOf srcLines origLine start, ∀ delta : Int,
    (adjustLine delta ln).dropWhile isWS = ln.dropWhile isWS)

/-- C1 (amended): see `RelocationFrameSpec`. -/
theorem relocation_frame (srcLines : List Line) (origLine : Line) (start : Nat)
    (destLines : List Line) (insertAt newDepth : Nat)
    (h1 : start < srcLines.length)
    (hterm : ∀ ln ∈ srcLines, ∀ c ∈ ln, isLineTerm c = false) :
    RelocationFrameSpec srcLines origLine start destLines insertAt newDepth := by
  have htail := blockTailLen_le (getIndentDepth (srcLines.getD start origLine))
    (srcLines.drop (start + 1))
  simp only [List.length_drop] at htail
  refine ⟨?_, ?_, ?_, ?_, ?_, ?_⟩
  · rw [relocateSubtree_fst]
    exact srcAfterOf_length srcLines origLine start h1
  · rw [relocateSubtree_snd]
    simp only [Bool.false_eq_true, if_false, spliceInsert_length]
    rw [adjustedOf_length srcLines origLine start newDepth h1]
  · rw [relocateSubtree_snd]
    simp only [if_true, spliceInsert_length]
    rw [adjustedOf_length srcLines origLine start newDepth h1]
    exact srcAfterOf_length srcLines origLine start h1
  · rw [moveSubtreeToFileEnd_fst]
    simp only [List.length_append, List.length_take, List.length_drop]
    rw [blockLenOf_eq]
    unfold blockEnd
    omega
  · rw [moveSubtreeToFileEnd_snd]
    by_cases hnl : endsWithNewline (joinLines
        (spliceInsert destLines (moveInsertAt destLines)
          (adjustedOf srcLines origLine start newDepth))) = true
    · left
      simp only [hnl, if_true, spliceInsert_length]
      rw [adjustedOf_length srcLines origLine start newDepth h1]
    · right
      simp only [Bool.not_eq_true] at hnl
      simp only [hnl, Bool.false_eq_true, if_false, List.length_append,
        spliceInsert_length, List.length_singleton]
      rw [adjustedOf_length srcLines origLine start newDepth h1]
  · intro ln hln delta
    have hmem : ln ∈ srcLines :=
      List.drop_subset start srcLines (List.take_subset _ _ hln)
    exact adjustLine_dropWhile (hterm ln hmem) delta

/-- C1 witness. -/
theorem relocation_frame_witness :
    (0 < [strLine "- [ ] a", strLine "  - [ ] b"].length ∧
     ∀ ln ∈ [strLine "- [ ] a", strLine "  - [ ] b"], ∀ c ∈ ln, isLineTerm c = false) ∧
    RelocationFrameSpec [strLine "- [ ] a", strLine "  - [ ] b"] [] 0 [strLine "z", []] 1 2 :=
  ⟨⟨by decide, by decide⟩,
    relocation_frame [strLine "- [ ] a", strLine "  - [ ] b"] [] 0 [strLine "z", []] 1 2
      (by decide) (by decide)⟩

/-! ### C4: same-document insertion index -/

/-- Modelled from the words of claim C4, for comparison with the code: the
same-document relocation in which the insertion index is decreased by the
removed block length if and only if the original insertion point lies
numerically after the removed range `[start, end]`, i.e. `end < insertAt`;
everything else is as in `relocateSubtree`. -/
def relocateSubtreeClaimed (srcLines : List Line) (origLine : Line) (start : Nat)
    (insertAt : Nat) (newDepth : Nat) : List Line × List Line :=
  let srcDepth := getIndentDepth (srcLines.getD start origLine)
  let e := blockEnd srcLines start srcDepth
  let blockLen := e - start + 1
  let depthDelta : Int := (newDepth : Int) - (srcDepth : Int)
  let adjustedBlock := ((srcLines.drop start).take (e + 1 - start)).map (adjustLine depthDelta)
  let srcAfter := spliceRemove srcLines start blockLen
  let ins1 : Int := if e < insertAt then (insertAt : Int) - blockLen else insertAt
  let k : Nat := (max 0 (min (srcAfter.length : Int) ins1)).toNat
  (srcAfter, spliceInsert srcAfter k adjustedBlock)

/-- C4 counterexample: moving the block `[0, 2]` of a four-line document to
insertion point 1 — a point numerically inside, not after, the removed range
— the code still decreases the index by the block length (condition
`start < insertAt`), producing a different document than the behaviour the
claim describes (decrease only when `end < insertAt`). -/
theorem same_file_shift_counterexample :
    (relocateSubtree
        [strLine "- [ ] a", strLine "  - [ ] b", strLine "  - [ ] c", strLine "- [ ] d"]
        [] 0 true [] 1 1).2 ≠
      (relocateSubtreeClaimed
        [strLine "- [ ] a", strLine "  - [ ] b", strLine "  - [ ] c", strLine "- [ ] d"]
        [] 0 1 1).2 ∧
    (relocateSubtree
        [strLine "- [ ] a", strLine "  - [ ] b", strLine "  - [ ] c", strLine "- [ ] d"]
        [] 0 true [] 1 1).2 =
      [strLine "- [ ] a", strLine "  - [ ] b", strLine "  - [ ] c", strLine "- [ ] d"] ∧
    (relocateSubtreeClaimed
        [strLine "- [ ] a", strLine "  - [ ] b", strLine "  - [ ] c", strLine "- [ ] d"]
        [] 0 1 1).2 =
      [strLine "- [ ] d", strLine "- [ ] a", strLine "  - [ ] b", strLine "  - [ ] c"] := by
  refine ⟨?_, ?_, ?_⟩
  · decide
  · decide
  · decide

/-- C4 (amended): in a same-document move, after the block is spliced out the
computed insertion index is decreased by the removed block length if and only
if the original insertion point is numerically after the removed block's
START (`start < insertAt`) — not its end — and the result is clamped into
`[0, length of the spliced source]` before the block is spliced back in. -/
theorem same_file_insert_index (srcLines : List Line) (origLine : Line) (start : Nat)
    (destLines : List Line) (insertAt newDepth : Nat) :
    (relocateSubtree srcLines origLine start true destLines insertAt newDepth).2 =
      spliceInsert (srcAfterOf srcLines origLine start)
        (clampIndex (srcAfterOf srcLines origLine start).length
          (relocShiftedIndex start insertAt (blockLenOf srcLines origLine start) true))
        (adjustedOf srcLines origLine start newDepth) ∧
    (start < insertAt →
      relocShiftedIndex start insertAt (blockLenOf srcLines origLine start) true =
        (insertAt : Int) - blockLenOf srcLines origLine start) ∧
    (insertAt ≤ start →
      relocShiftedIndex start insertAt (blockLenOf srcLines origLine start) true =
        (insertAt : Int)) ∧
    clampIndex (srcAfterOf srcLines origLine start).length
        (relocShiftedIndex start insertAt (blockLenOf srcLines origLine start) true) ≤
      (srcAfterOf srcLines origLine start).length := by
  refine ⟨relocateSubtree_snd srcLines origLine start true destLines insertAt newDepth, ?_, ?_, ?_⟩
  · intro h
    unfold relocShiftedIndex
    simp [h]
  · intro h
    unfold relocShiftedIndex
    simp [Nat.not_lt.mpr h]
  · unfold clampIndex
    omega

/-- C4 witness. -/
theorem same_file_insert_index_witness :
    (relocateSubtree [strLine "- [ ] a", strLine "- [ ] b"] [] 0 true [] 2 1).2 =
      spliceInsert (srcAfterOf [strLine "- [ ] a", strLine "- [ ] b"] [] 0)
        (clampIndex (srcAfterOf [strLine "- [ ] a", strLine "- [ ] b"] [] 0).length
          (relocShiftedIndex 0 2 (blockLenOf [strLine "- [ ] a", strLine "- [ ] b"] [] 0) true))
        (adjustedOf [strLine "- [ ] a", strLine "- [ ] b"] [] 0 1) ∧
    (0 < 2 →
      relocShiftedIndex 0 2 (blockLenOf [strLine "- [ ] a", strLine "- [ ] b"] [] 0) true =
        (2 : Int) - blockLenOf [strLine "- [ ] a", strLine "- [ ] b"] [] 0) ∧
    (2 ≤ 0 →
      relocShiftedIndex 0 2 (blockLenOf [strLine "- [ ] a", strLine "- [ ] b"] [] 0) true =
        (2 : Int)) ∧
    clampIndex (srcAfterOf [strLine "- [ ] a", strLine "- [ ] b"] [] 0).length
        (relocShiftedIndex 0 2 (blockLenOf [strLine "- [ ] a", strLine "- [ ] b"] [] 0) true) ≤
      (srcAfterOf [strLine "- [ ] a", strLine "- [ ] b"] [] 0).length :=
  same_file_insert_index [strLine "- [ ] a", strLine "- [ ] b"] [] 0 [] 2 1


/-! ### Hierarchy scanner (`src/data/scan.ts`, `getCachedFileParse` miss path)

The scanner walks the document's lines, keeps the task lines, and then
assigns `parentId`s with a depth-descending stack.  The `rootKey`/`rootToken`
fields (display-only colour grouping metadata) are omitted: no verified claim
concerns them. -/

/-- A scanned task node (`TaskEntry` in `src/types.ts`, minus the display-only
root-group fields and the host file handle). -/
structure TaskEntry where
  lineIndex : Nat
  originalLine : Line
  depth : Nat
  id : String
  parentId : Option String := none
deriving DecidableEq

/-- `` `${path}::${i}` ``, the synthetic stable id. -/
def mkId (path : String) (i : Nat) : String := path ++ "::" ++ toString i

/-- First scanner pass (`scan.ts` lines 76-96): keep the task lines, with
depth from `utils/text.getIndentDepth` and id derived from `(path, index)`. -/
def baseEntriesAux (path : String) : Nat → List Line → List TaskEntry
  | _, [] => []
  | i, ln :: rest =>
      if taskTest ln then
        { lineIndex := i, originalLine := ln, depth := getIndentDepthText ln,
          id := mkId path i } :: baseEntriesAux path (i + 1) rest
      else baseEntriesAux path (i + 1) rest

def baseEntries (path : String) (lines : List Line) : List TaskEntry :=
  baseEntriesAux path 0 lines

/-- `while (stack.length && stack[stack.length-1].depth >= e.depth) stack.pop()`
with the stack top at the head. -/
def popGE (d : Nat) : List TaskEntry → List TaskEntry
  | [] => []
  | t :: s => if d ≤ t.depth then popGE d s else t :: s

/-- Second scanner pass (`scan.ts` lines 98-103): parent assignment via the
depth-descending stack; the entry (with its `parentId` now set) is pushed. -/
def assignParentsAux (stack : List TaskEntry) : List TaskEntry → List TaskEntry
  | [] => []
  | e :: rest =>
      let s := popGE e.depth stack
      let e2 := { e with parentId := s.head?.map (fun t => t.id) }
      e2 :: assignParentsAux (e2 :: s) rest

def assignParents (es : List TaskEntry) : List TaskEntry := assignParentsAux [] es

/-- `childrenById` construction (`scan.ts` lines 105-109): append each node's
id under its parent's id, in document order; create the bucket on first use. -/
def alPush (k v : String) : List (String × List String) → List (String × List String)
  | [] => [(k, [v])]
  | (k2, vs) :: rest => if k2 = k then (k2, vs ++ [v]) :: rest else (k2, vs) :: alPush k v rest

def buildChildren (es : List TaskEntry) : List (String × List String) :=
  es.foldl (fun m e => match e.parentId with | none => m | some pid => alPush pid e.id m) []

/-- The full per-document parse (`getCachedFileParse` miss path, minus the
cache bookkeeping): node list with parents assigned, plus the children index. -/
def parseFile (path : String) (lines : List Line) :
    List TaskEntry × List (String × List String) :=
  let es := assignParents (baseEntries path lines)
  (es, buildChildren es)

/-! ### The stack computes "nearest preceding strictly shallower" -/

/-- The `(depth, id)` projection: the only data the stack pass reads. -/
def entryKey (e : TaskEntry) : Nat × String := (e.depth, e.id)

def keysOf (s : List TaskEntry) : List (Nat × String) := s.map entryKey

/-- `popGE` at the key level. -/
def popGEk (d : Nat) : List (Nat × String) → List (Nat × String)
  | [] => []
  | t :: s => if d ≤ t.1 then popGEk d s else t :: s

/-- The stack contents (as keys) after processing a prefix of entries. -/
def stackKOf (l : List (Nat × String)) : List (Nat × String) :=
  l.foldl (fun s e => e :: popGEk e.1 s) []

theorem popGE_cons (d : Nat) (t : TaskEntry) (s : List TaskEntry) :
    popGE d (t :: s) = if d ≤ t.depth then popGE d s else t :: s := rfl

theorem popGEk_cons (d : Nat) (t : Nat × String) (s : List (Nat × String)) :
    popGEk d (t :: s) = if d ≤ t.1 then popGEk d s else t :: s := rfl

theorem keysOf_popGE (d : Nat) (s : List TaskEntry) :
    keysOf (popGE d s) = popGEk d (keysOf s) := by
  induction s with
  | nil => rfl
  | cons t s ih =>
      rw [popGE_cons, show keysOf (t :: s) = entryKey t :: keysOf s from rfl, popGEk_cons]
      by_cases h : d ≤ t.depth
      · rw [if_pos h, if_pos (show d ≤ (entryKey t).1 from h), ih]
      · rw [if_neg h, if_neg (show ¬d ≤ (entryKey t).1 from h)]
        rfl

theorem popGEk_popGEk (d1 d2 : Nat) (s : List (Nat × String)) (h : d1 ≤ d2) :
    popGEk d1 (popGEk d2 s) = popGEk d1 s := by
  induction s with
  | nil => rfl
  | cons t s ih =>
      by_cases h2 : d2 ≤ t.1
      · rw [popGEk_cons d2, if_pos h2, ih, popGEk_cons d1, if_pos (Nat.le_trans h h2)]
      · rw [popGEk_cons d2, if_neg h2]

theorem popGEk_stackKOf_head (l : List (Nat × String)) (d : Nat) :
    (popGEk d (stackKOf l)).head? = l.reverse.find? (fun p => decide (p.1 < d)) := by
  induction l using List.reverseRecOn with
  | nil => rfl
  | append_singleton l e ih =>
      have hfold : stackKOf (l ++ [e]) = e :: popGEk e.1 (stackKOf l) := by
        unfold stackKOf
        rw [List.foldl_append]
        rfl
      rw [hfold, List.reverse_append, List.reverse_singleton, List.singleton_append,
        List.find?_cons]
      by_cases h : e.1 < d
      · rw [popGEk_cons, if_neg (show ¬d ≤ e.1 by omega), List.head?_cons,
          show decide (e.1 < d) = true from decide_eq_true h]
      · rw [popGEk_cons, if_pos (show d ≤ e.1 by omega),
          popGEk_popGEk d e.1 (stackKOf l) (by omega), ih,
          show decide (e.1 < d) = false from decide_eq_false h]

/-- The parent id computed for depth `d` against the stack of a processed
prefix: the id of the nearest preceding entry of strictly smaller depth. -/
theorem parent_from_stack (l : List (Nat × String)) (d : Nat) :
    ((popGEk d (stackKOf l)).head?).map (fun p => p.2) =
      (l.reverse.find? (fun p => decide (p.1 < d))).map (fun p => p.2) := by
  rw [popGEk_stackKOf_head]


/-- A throw-away default entry for `List.getD`. -/
def noEntry : TaskEntry := { lineIndex := 0, originalLine := [], depth := 0, id := "" }

/-- `e.parentId = ...` (the mutation performed by the stack pass). -/
def withParent (e : TaskEntry) (p : Option String) : TaskEntry := { e with parentId := p }

theorem assignParentsAux_cons (stack : List TaskEntry) (e : TaskEntry)
    (rest : List TaskEntry) :
    assignParentsAux stack (e :: rest) =
      withParent e ((popGE e.depth stack).head?.map (fun t => t.id)) ::
        assignParentsAux
          (withParent e ((popGE e.depth stack).head?.map (fun t => t.id)) ::
            popGE e.depth stack) rest := rfl

theorem entryKey_withParent (e : TaskEntry) (p : Option String) :
    entryKey (withParent e p) = entryKey e := rfl

theorem keysOf_assignParentsAux (l : List TaskEntry) :
    ∀ stack : List TaskEntry, keysOf (assignParentsAux stack l) = keysOf l := by
  induction l with
  | nil => intro stack; rfl
  | cons e rest ih =>
      intro stack
      have h1 : keysOf (assignParentsAux stack (e :: rest)) =
          entryKey e :: keysOf (assignParentsAux
            (withParent e ((popGE e.depth stack).head?.map (fun t => t.id)) ::
              popGE e.depth stack) rest) := rfl
      rw [h1, ih]
      rfl

theorem stackKOf_append_singleton (l : List (Nat × String)) (e : Nat × String) :
    stackKOf (l ++ [e]) = e :: popGEk e.1 (stackKOf l) := by
  unfold stackKOf
  rw [List.foldl_append]
  rfl

theorem head_map_id_eq_keys (s : List TaskEntry) :
    s.head?.map (fun t => t.id) = ((keysOf s).head?).map (fun p => p.2) := by
  cases s <;> rfl

theorem getD_map_key (l : List TaskEntry) (i : Nat) :
    (keysOf l).getD i (entryKey noEntry) = entryKey (l.getD i noEntry) := by
  unfold keysOf
  simp only [List.getD_eq_getElem?_getD, List.getElem?_map]
  cases l[i]? <;> rfl

/-- Main invariant of the parent-assignment pass: when the stack holds the
keys `stackKOf prek` of the already-processed prefix `prek`, the parent
assigned to the `i`-th remaining entry is the id of the nearest preceding
strictly-shallower key in `prek ++ keys of the processed part of rest`. -/
theorem assignParentsAux_getD (rest : List TaskEntry) :
    ∀ (stack : List TaskEntry) (prek : List (Nat × String)),
      keysOf stack = stackKOf prek →
      ∀ i, i < rest.length →
        ((assignParentsAux stack rest).getD i noEntry).parentId =
          ((prek ++ keysOf (rest.take i)).reverse.find?
            (fun p => decide (p.1 < (rest.getD i noEntry).depth))).map (fun p => p.2) := by
  induction rest with
  | nil =>
      intro stack prek hstack i hi
      exact absurd hi (by simp)
  | cons e rest ih =>
      intro stack prek hstack i hi
      rw [assignParentsAux_cons]
      cases i with
      | zero =>
          simp only [List.getD_cons_zero, List.take_zero]
          rw [show keysOf ([] : List TaskEntry) = [] from rfl, List.append_nil]
          have hw : (withParent e ((popGE e.depth stack).head?.map
              (fun t => t.id))).parentId =
              (popGE e.depth stack).head?.map (fun t => t.id) := rfl
          rw [hw, head_map_id_eq_keys, keysOf_popGE, hstack, popGEk_stackKOf_head]
      | succ j =>
          simp only [List.getD_cons_succ]
          have hkey : keysOf (withParent e ((popGE e.depth stack).head?.map
              (fun t => t.id)) :: popGE e.depth stack) =
              stackKOf (prek ++ [entryKey e]) := by
            rw [stackKOf_append_singleton]
            have h2 : keysOf (withParent e ((popGE e.depth stack).head?.map
                (fun t => t.id)) :: popGE e.depth stack) =
                entryKey e :: keysOf (popGE e.depth stack) := rfl
            rw [h2, keysOf_popGE, hstack]
            rfl
          have hres := ih _ (prek ++ [entryKey e]) hkey j
            (by simpa using Nat.lt_of_succ_lt_succ hi)
          rw [show (e :: rest).take (j + 1) = e :: rest.take j from rfl,
            show keysOf (e :: rest.take j) = entryKey e :: keysOf (rest.take j) from rfl,
            List.append_cons]
          exact hres


theorem assignParents_getD (es : List TaskEntry) (i : Nat) (h : i < es.length) :
    ((assignParents es).getD i noEntry).parentId =
      ((keysOf (es.take i)).reverse.find?
        (fun p => decide (p.1 < (es.getD i noEntry).depth))).map (fun p => p.2) := by
  have hx := assignParentsAux_getD es [] [] rfl i h
  simpa using hx

theorem keysOf_length (l : List TaskEntry) : (keysOf l).length = l.length := by
  unfold keysOf
  exact List.length_map l entryKey

theorem assignParents_length (es : List TaskEntry) :
    (assignParents es).length = es.length := by
  have hx := congrArg List.length (keysOf_assignParentsAux es [])
  rwa [keysOf_length, keysOf_length] at hx

theorem keysOf_assignParents (es : List TaskEntry) :
    keysOf (assignParents es) = keysOf es :=
  keysOf_assignParentsAux es []

theorem assignParents_depth (es : List TaskEntry) (i : Nat) :
    ((assignParents es).getD i noEntry).depth = (es.getD i noEntry).depth := by
  have hx : entryKey ((assignParents es).getD i noEntry) =
      entryKey (es.getD i noEntry) := by
    rw [← getD_map_key, ← getD_map_key, keysOf_assignParents]
  exact congrArg Prod.fst hx

theorem keysOf_take_assignParents (es : List TaskEntry) (i : Nat) :
    keysOf ((assignParents es).take i) = keysOf (es.take i) := by
  unfold keysOf
  rw [List.map_take, List.map_take]
  exact congrArg (List.take i) (keysOf_assignParents es)

theorem find?_keys_map (L : List TaskEntry) (d : Nat) :
    ((keysOf L).reverse.find? (fun p => decide (p.1 < d))).map (fun p => p.2) =
      (L.reverse.find? (fun t => decide (t.depth < d))).map (fun t => t.id) := by
  unfold keysOf
  rw [← List.map_reverse, List.find?_map, Option.map_map]
  rfl

/-- C6: for every document scan, every node's `parentId` is the id of the
nearest preceding node (in line order within the document) of strictly
smaller depth, and a node with no such preceding shallower node has no
`parentId` (computed via the depth-descending stack of
`getCachedFileParse`). -/
theorem scan_parent_nearest_shallower (path : String) (lines : List Line) (i : Nat)
    (h : i < (parseFile path lines).1.length) :
    ((parseFile path lines).1.getD i noEntry).parentId =
      (((parseFile path lines).1.take i).reverse.find?
        (fun t => decide (t.depth <
          ((parseFile path lines).1.getD i noEntry).depth))).map (fun t => t.id) := by
  have hfst : (parseFile path lines).1 = assignParents (baseEntries path lines) := rfl
  rw [hfst]
  have hlen : i < (baseEntries path lines).length := by
    rw [← assignParents_length (baseEntries path lines)]
    rw [hfst] at h
    exact h
  rw [assignParents_getD (baseEntries path lines) i hlen, assignParents_depth,
    ← keysOf_take_assignParents, find?_keys_map]

/-- C6 witness: in the document `["- [ ] Buy milk", "  - [ ] milk", "- [ ] dog"]`
node 1 (depth 2) has node 0 as parent. -/
theorem scan_parent_nearest_shallower_witness :
    (1 < (parseFile "p" [strLine "- [ ] Buy milk", strLine "  - [ ] milk",
        strLine "- [ ] dog"]).1.length) ∧
    ((parseFile "p" [strLine "- [ ] Buy milk", strLine "  - [ ] milk",
        strLine "- [ ] dog"]).1.getD 1 noEntry).parentId =
      (((parseFile "p" [strLine "- [ ] Buy milk", strLine "  - [ ] milk",
          strLine "- [ ] dog"]).1.take 1).reverse.find?
        (fun t => decide (t.depth <
          ((parseFile "p" [strLine "- [ ] Buy milk", strLine "  - [ ] milk",
            strLine "- [ ] dog"]).1.getD 1 noEntry).depth))).map (fun t => t.id) :=
  ⟨by decide,
    scan_parent_nearest_shallower "p"
      [strLine "- [ ] Buy milk", strLine "  - [ ] milk", strLine "- [ ] dog"] 1 (by decide)⟩


/-! ### Association lists: the JS `Map` operations used by the scanner.

JS `Map` preserves insertion order; `set` on an existing key updates the
value in place, on a fresh key it appends. -/

def alGet? (k : String) : List (String × α) → Option α
  | [] => none
  | (k2, v) :: rest => if k2 = k then some v else alGet? k rest

def alHas (k : String) (m : List (String × α)) : Bool := (alGet? k m).isSome

def alSet (k : String) (v : α) : List (String × α) → List (String × α)
  | [] => [(k, v)]
  | (k2, v2) :: rest => if k2 = k then (k2, v) :: rest else (k2, v2) :: alSet k v rest

theorem alGet?_alSet_self (k : String) (v : α) (m : List (String × α)) :
    alGet? k (alSet k v m) = some v := by
  induction m with
  | nil => simp [alSet, alGet?]
  | cons kv rest ih =>
      unfold alSet
      by_cases h : kv.1 = k
      · simp [alGet?, h]
      · simp [alGet?, h, ih]

theorem alGet?_alSet_ne (k k2 : String) (v : α) (m : List (String × α)) (h : k ≠ k2) :
    alGet? k (alSet k2 v m) = alGet? k m := by
  have hne : ¬k2 = k := fun hx => h hx.symm
  induction m with
  | nil => simp [alSet, alGet?, hne]
  | cons kv rest ih =>
      obtain ⟨k3, v3⟩ := kv
      unfold alSet
      by_cases h2 : k3 = k2
      · subst h2
        simp only [if_pos rfl]
        unfold alGet?
        have h3 : ¬k3 = k := fun hx => hne (hx ▸ rfl)
        simp [h3]
      · simp only [if_neg h2]
        unfold alGet?
        by_cases h3 : k3 = k
        · simp [h3]
        · simp [h3, ih]

/-! ### Parse cache (`src/data/scan.ts`, `TASK_PARSE_CACHE`) -/

/-- A cache slot: `{ mtime, entries, childrenById }`. -/
structure CachedParse where
  mtime : Int
  entries : List TaskEntry
  children : List (String × List String)
deriving DecidableEq

/-- Result of one `getCachedFileParse` call: the returned entries/children,
the cache state afterwards, and how many times the document content was read
(`vault.read`). -/
structure ParseOutcome where
  entries : List TaskEntry
  children : List (String × List String)
  cache : List (String × CachedParse)
  reads : Nat
deriving DecidableEq

/-- `getCachedFileParse` (`scan.ts` lines 62-113): on a hit with unchanged
mtime the memoized entries/children are returned as stored, without reading
the content; otherwise the content is read (one read), parsed, and the cache
slot replaced. -/
def getCachedFileParse (cache : List (String × CachedParse)) (path : String)
    (mtime : Int) (lines : List Line) : ParseOutcome :=
  match alGet? path cache with
  | some cached =>
      if cached.mtime = mtime then
        { entries := cached.entries, children := cached.children, cache := cache, reads := 0 }
      else
        { entries := (parseFile path lines).1, children := (parseFile path lines).2,
          cache := alSet path
            { mtime := mtime, entries := (parseFile path lines).1,
              children := (parseFile path lines).2 } cache,
          reads := 1 }
  | none =>
      { entries := (parseFile path lines).1, children := (parseFile path lines).2,
        cache := alSet path
          { mtime := mtime, entries := (parseFile path lines).1,
            children := (parseFile path lines).2 } cache,
        reads := 1 }

/-- C8: if the modification timestamp is unchanged, a second call of the
Parse Cache returns exactly the memoized entries list and children index of
the first call (the values stored in the cache slot, not recomputed — the
result is independent of the content `lines2` supplied to the second call),
performs zero content reads, and leaves the cache state unchanged. -/
theorem parse_cache_idempotent (cache : List (String × CachedParse)) (path : String)
    (mtime : Int) (lines lines2 : List Line) :
    getCachedFileParse (getCachedFileParse cache path mtime lines).cache path mtime lines2 =
      { entries := (getCachedFileParse cache path mtime lines).entries,
        children := (getCachedFileParse cache path mtime lines).children,
        cache := (getCachedFileParse cache path mtime lines).cache,
        reads := 0 } := by
  cases hc : alGet? path cache with
  | some cached =>
      by_cases hm : cached.mtime = mtime
      · simp [getCachedFileParse, hc, hm]
      · simp [getCachedFileParse, hc, hm, alGet?_alSet_self]
  | none => simp [getCachedFileParse, hc, alGet?_alSet_self]

/-! ### Rule compiler (`src/data/scan.ts`, `compileRules`) -/

/-- A raw settings rule `{ name, re }`. -/
structure RawRule where
  name : String
  re : String
deriving DecidableEq

/-- A compiled rule; `μ` is the matcher produced by a successful
`new RegExp(...)`. -/
structure CompiledRule (μ : Type) where
  name : String
  re : μ
deriving DecidableEq

/-- `compileRules` (`scan.ts` lines 5-14): each raw rule's pattern is
compiled — `new RegExp(r.re)` is modeled by the total oracle `compile`,
which returns `none` exactly when the constructor would throw, so the
embedded function is total ("never throws") by construction — a failure maps
the rule to `null`, and `.filter(Boolean)` drops the nulls. -/
def compileRules (compile : String → Option μ) (rules : List RawRule) :
    List (CompiledRule μ) :=
  (rules.map (fun r => (compile r.re).map
    (fun m => ({ name := r.name, re := m } : CompiledRule μ)))).reduceOption

theorem compileRules_eq_filterMap (compile : String → Option μ) (rules : List RawRule) :
    compileRules compile rules =
      rules.filterMap (fun r => (compile r.re).map
        (fun m => ({ name := r.name, re := m } : CompiledRule μ))) := by
  unfold compileRules
  rw [List.reduceOption, List.filterMap_map]
  rfl

/-- C9: `compileRules` never throws (it is a total function of the
compilation oracle); its output is exactly the rules whose pattern compiles,
in input order (the `filterMap` characterization), and a rule whose pattern
fails to compile is dropped without affecting the compilation of the
remaining rules (removing it from any position leaves the output
unchanged). -/
theorem compileRules_spec (compile : String → Option μ)
    (pre post : List RawRule) (bad : RawRule) (h : compile bad.re = none) :
    compileRules compile (pre ++ bad :: post) = compileRules compile (pre ++ post) ∧
    compileRules compile (pre ++ post) =
      (pre ++ post).filterMap (fun r => (compile r.re).map
        (fun m => ({ name := r.name, re := m } : CompiledRule μ))) := by
  refine ⟨?_, compileRules_eq_filterMap compile (pre ++ post)⟩
  rw [compileRules_eq_filterMap, compileRules_eq_filterMap,
    List.filterMap_append, List.filterMap_append]
  congr 1
  rw [List.filterMap_cons]
  simp [h]

/-- The concrete compilation oracle used by the C9 witness: pattern `"("`
fails to compile. -/
def compileW : String → Option Unit := fun s => if s = "(" then none else some ()

def rulesPreW : List RawRule := [{ name := "A", re := "a" }]

def rulesPostW : List RawRule := [{ name := "B", re := "b" }]

def ruleBadW : RawRule := { name := "C", re := "(" }

/-- C9 witness: a bad middle rule is dropped, the good ones survive in
order. -/
theorem compileRules_spec_witness :
    compileW ruleBadW.re = none ∧
    (compileRules compileW (rulesPreW ++ ruleBadW :: rulesPostW) =
        compileRules compileW (rulesPreW ++ rulesPostW) ∧
      compileRules compileW (rulesPreW ++ rulesPostW) =
        (rulesPreW ++ rulesPostW).filterMap (fun r => (compileW r.re).map
          (fun m => ({ name := r.name, re := m } : CompiledRule Unit)))) :=
  ⟨by decide, compileRules_spec compileW rulesPreW rulesPostW ruleBadW (by decide)⟩


/-! ### Grouping engine (`src/data/scan.ts`, `scanTasks`)

`scanTasks` is modeled cache-transparently: `getCachedFileParse` returns the
same entries/children as `parseFile` for the file content supplied (see
`parse_cache_idempotent`), so each file contributes `parseFile` of its lines.
JS `Map`s are association lists in insertion order (see `alGet?`/`alSet`). -/

/-- A compiled rule with its matcher `c.re.test` applied as a path
predicate. -/
structure MatchRule where
  name : String
  test : String → Bool

/-- `FileBucket` from `src/types.ts`. -/
structure FileBucket where
  filePath : String
  fileName : String
  items : List TaskEntry
deriving DecidableEq

/-- `GroupBucket` from `src/types.ts`. -/
structure GroupBucket where
  key : String
  name : String
  files : List FileBucket
deriving DecidableEq

/-- An input document: path plus content lines. -/
structure ScanFile where
  path : String
  lines : List Line
deriving DecidableEq

/-- `getMatchedRules` (`scan.ts` lines 121-123). -/
def matchedRules (path : String) (compiled : List MatchRule) : List MatchRule :=
  compiled.filter (fun c => c.test path)

/-- `(s ?? "").trim()` on a rule name. -/
def trimName (s : String) : String := String.mk (trimJS s.data)

/-- `path.replace(/\.md$/i, "")` for the final path segment. -/
def stripMdExt (s : String) : String :=
  if s.toLower.endsWith ".md" then s.dropRight 3 else s

/-- `extractFileName` (`scan.ts` lines 125-127). -/
def extractFileName (path : String) : String :=
  stripMdExt ((path.splitOn "/").getLastD path)

/-- `Array.from(new Set(...))`: deduplication keeping first occurrences. -/
def dedupFirst : List String → List String
  | [] => []
  | a :: l => a :: (dedupFirst l).filter (fun b => !(b = a))

/-- The distinct non-empty trimmed group names among the matching rules
(`scan.ts` lines 175-177). -/
def groupNamesOf (matched : List MatchRule) : List String :=
  dedupFirst ((matched.map (fun m => trimName m.name)).filter (fun s => !(s = "")))

/-- `if (!groupsMap.has(gName)) groupsMap.set(gName, new Map())`: ensure the
group's file map exists (appending an empty one preserves insertion order). -/
def ensureGroup (gName : String) (gm : List (String × List (String × FileBucket))) :
    List (String × List (String × FileBucket)) :=
  if alHas gName gm then gm else gm ++ [(gName, [])]

/-- One iteration of the `for (const gName of groupNames)` loop of
`addFileToGroups`: ensure the group's file map exists, then insert the
file's bucket unless the path is already present. -/
def addToGroup (path : String) (fb : FileBucket)
    (gm : List (String × List (String × FileBucket))) (gName : String) :
    List (String × List (String × FileBucket)) :=
  let gm1 := ensureGroup gName gm
  let fm := (alGet? gName gm1).getD []
  if alHas path fm then gm1 else alSet gName (fm ++ [(path, fb)]) gm1

/-- The mutable state threaded through the `scanTasks` loop. -/
structure ScanAcc where
  tasksByFile : List (String × List TaskEntry)
  children : List (String × List String)
  flatFiles : List (String × FileBucket)
  groupsMap : List (String × List (String × FileBucket))

/-- `addFileToGroups` (`scan.ts` lines 160-185): a file with no task entries
is skipped entirely; flat mode inserts into the single file map (first
insertion wins), grouped mode inserts into each distinct non-empty group
name among the matching rules. -/
def addFileToGroups (path fileName : String) (rawEntries : List TaskEntry)
    (matched : List MatchRule) (hasGroups : Bool) (acc : ScanAcc) : ScanAcc :=
  if rawEntries.isEmpty then acc
  else
    let fb : FileBucket := { filePath := path, fileName := fileName, items := rawEntries }
    if !hasGroups then
      { acc with flatFiles :=
          if alHas path acc.flatFiles then acc.flatFiles
          else acc.flatFiles ++ [(path, fb)] }
    else
      { acc with groupsMap := (groupNamesOf matched).foldl (addToGroup path fb) acc.groupsMap }

/-- Merge one file's children index into the global one (`scan.ts` lines
48-51): create the bucket if absent, then push the kids. -/
def alAppendAll (k : String) (vs : List String) (m : List (String × List String)) :
    List (String × List String) :=
  match alGet? k m with
  | some old => alSet k (old ++ vs) m
  | none => m ++ [(k, vs)]

def mergeChildren (global : List (String × List String))
    (localChildren : List (String × List String)) : List (String × List String) :=
  localChildren.foldl (fun m pk => alAppendAll pk.1 pk.2 m) global

/-- The body of the `for (const file of files)` loop of `scanTasks`
(`scan.ts` lines 38-56). -/
def scanStep (compiled : List MatchRule) (hasGroups : Bool) (acc : ScanAcc)
    (f : ScanFile) : ScanAcc :=
  let matched := matchedRules f.path compiled
  if matched.isEmpty then acc
  else
    let acc1 := { acc with
      tasksByFile :=
        if (parseFile f.path f.lines).1.isEmpty then acc.tasksByFile
        else alSet f.path (parseFile f.path f.lines).1 acc.tasksByFile,
      children := mergeChildren acc.children (parseFile f.path f.lines).2 }
    addFileToGroups f.path (extractFileName f.path) (parseFile f.path f.lines).1
      matched hasGroups acc1

/-- Insertion sort modelling `Array.prototype.sort` with a `localeCompare`
comparator: the output is a sorted permutation of the input (collation is
modeled as Lean's string order; the verified claims only use sortedness and
membership). -/
def insertByKey (key : α → String) (a : α) : List α → List α
  | [] => [a]
  | b :: l => if key a ≤ key b then a :: b :: l else b :: insertByKey key a l

def sortByKey (key : α → String) (l : List α) : List α :=
  l.foldr (insertByKey key) []

/-- `buildGroupBuckets` (`scan.ts` lines 188-209). -/
def buildGroupBuckets (hasGroups : Bool) (flatFiles : List (String × FileBucket))
    (groupsMap : List (String × List (String × FileBucket))) : List GroupBucket :=
  if !hasGroups then
    [{ key := "__ALL__", name := "",
       files := sortByKey (fun fb => fb.fileName) (flatFiles.map (fun kv => kv.2)) }]
  else
    (sortByKey (fun s => s) (groupsMap.map (fun kv => kv.1))).map
      (fun gName =>
        { key := gName, name := gName,
          files := sortByKey (fun fb => fb.fileName)
            (((alGet? gName groupsMap).getD []).map (fun kv => kv.2)) })

/-- `ScanResult` from `src/types.ts` (row references omitted). -/
structure ScanResult where
  groups : List GroupBucket
  tasksByFile : List (String × List TaskEntry)
  childrenById : List (String × List String)
  hasGroups : Bool

/-- Whether at least one compiled rule carries a non-empty trimmed group
name (`scan.ts` line 34). -/
def hasGroupsOf (compiled : List MatchRule) : Bool :=
  compiled.any (fun c => 0 < (trimName c.name).length)

/-- The empty accumulator. -/
def emptyAcc : ScanAcc :=
  { tasksByFile := [], children := [], flatFiles := [], groupsMap := [] }

/-- `scanTasks` (`scan.ts` lines 24-60). -/
def scanTasks (compiled : List MatchRule) (files : List ScanFile) : ScanResult :=
  if compiled.isEmpty || files.isEmpty then
    { groups := [], tasksByFile := [], childrenById := [], hasGroups := false }
  else
    { groups := buildGroupBuckets (hasGroupsOf compiled)
        (files.foldl (scanStep compiled (hasGroupsOf compiled)) emptyAcc).flatFiles
        (files.foldl (scanStep compiled (hasGroupsOf compiled)) emptyAcc).groupsMap,
      tasksByFile := (files.foldl (scanStep compiled (hasGroupsOf compiled)) emptyAcc).tasksByFile,
      childrenById := (files.foldl (scanStep compiled (hasGroupsOf compiled)) emptyAcc).children,
      hasGroups := hasGroupsOf compiled }

/-- The parsed entries a file contributes (cache-transparent). -/
def entriesOf (f : ScanFile) : List TaskEntry := (parseFile f.path f.lines).1

/-- The distinct non-empty group names of the rules matching a file. -/
def namesOf (compiled : List MatchRule) (f : ScanFile) : List String :=
  groupNamesOf (matchedRules f.path compiled)

/-- The `FileBucket` built for a file. -/
def mkFileBucket (f : ScanFile) : FileBucket :=
  { filePath := f.path, fileName := extractFileName f.path, items := entriesOf f }


/-! ### Sortedness and permutation facts for `sortByKey` -/

theorem insertByKey_perm (key : α → String) (a : α) (l : List α) :
    List.Perm (insertByKey key a l) (a :: l) := by
  induction l with
  | nil => exact List.Perm.refl _
  | cons b l ih =>
      unfold insertByKey
      split
      · exact List.Perm.refl _
      · exact (ih.cons b).trans (List.Perm.swap a b l)

theorem sortByKey_perm (key : α → String) (l : List α) :
    List.Perm (sortByKey key l) l := by
  induction l with
  | nil => exact List.Perm.refl _
  | cons a l ih => exact (insertByKey_perm key a (sortByKey key l)).trans (ih.cons a)

theorem insertByKey_sorted (key : α → String) (a : α) (l : List α)
    (h : List.Pairwise (fun x y => key x ≤ key y) l) :
    List.Pairwise (fun x y => key x ≤ key y) (insertByKey key a l) := by
  induction l with
  | nil => simp [insertByKey]
  | cons b l ih =>
      rcases List.pairwise_cons.mp h with ⟨hb, hl⟩
      unfold insertByKey
      split
      · rename_i hab
        refine List.pairwise_cons.mpr ⟨?_, h⟩
        intro y hy
        rcases List.mem_cons.mp hy with rfl | hy2
        · exact hab
        · exact le_trans hab (hb y hy2)
      · rename_i hab
        have hba : key b ≤ key a := le_of_not_le hab
        refine List.pairwise_cons.mpr ⟨?_, ih hl⟩
        intro y hy
        rcases List.mem_cons.mp ((insertByKey_perm key a l).mem_iff.mp hy) with rfl | hy2
        · exact hba
        · exact hb y hy2

theorem sortByKey_sorted (key : α → String) (l : List α) :
    List.Pairwise (fun x y => key x ≤ key y) (sortByKey key l) := by
  induction l with
  | nil => simp [sortByKey]
  | cons a l ih => exact insertByKey_sorted key a (sortByKey key l) ih

/-! ### More association-list facts -/

theorem alGet?_append (k : String) (m1 m2 : List (String × α)) :
    alGet? k (m1 ++ m2) = ((alGet? k m1).orElse (fun _ => alGet? k m2)) := by
  induction m1 with
  | nil => simp [alGet?]
  | cons kv rest ih =>
      obtain ⟨k2, v⟩ := kv
      show (if k2 = k then some v else alGet? k (rest ++ m2)) =
        ((if k2 = k then some v else alGet? k rest).orElse (fun _ => alGet? k m2))
      by_cases h : k2 = k
      · simp [h]
      · simp only [if_neg h]
        exact ih

theorem alGet?_isSome_of_key_mem (k : String) (m : List (String × α))
    (h : k ∈ m.map (fun kv => kv.1)) : (alGet? k m).isSome = true := by
  induction m with
  | nil => simp at h
  | cons kv rest ih =>
      obtain ⟨k2, v⟩ := kv
      unfold alGet?
      by_cases h2 : k2 = k
      · simp [h2]
      · simp only [List.map_cons, List.mem_cons] at h
        rcases h with h | h
        · exact absurd h.symm h2
        · simpa [h2] using ih h

theorem key_mem_of_alGet?_isSome (k : String) (m : List (String × α))
    (h : (alGet? k m).isSome = true) : k ∈ m.map (fun kv => kv.1) := by
  induction m with
  | nil => simp [alGet?] at h
  | cons kv rest ih =>
      obtain ⟨k2, v⟩ := kv
      unfold alGet? at h
      by_cases h2 : k2 = k
      · simp [h2]
      · simp only [if_neg h2] at h
        simp [ih h]

theorem dedupFirst_nodup (l : List String) : (dedupFirst l).Nodup := by
  induction l with
  | nil => simp [dedupFirst]
  | cons a l ih =>
      unfold dedupFirst
      refine List.nodup_cons.mpr ⟨?_, List.Nodup.filter _ ih⟩
      intro hmem
      have := List.of_mem_filter hmem
      simp at this


/-! ### `addToGroup` facts -/

theorem alGet?_singleton_ne (k k2 : String) (v : α) (h : ¬k2 = k) :
    alGet? k [(k2, v)] = none := by
  simp [alGet?, h]

theorem orElse_none (o : Option α) : (o.orElse fun _ => none) = o := by
  cases o <;> rfl

theorem ensureGroup_get_ne (g g2 : String)
    (gm : List (String × List (String × FileBucket))) (h : g ≠ g2) :
    alGet? g (ensureGroup g2 gm) = alGet? g gm := by
  unfold ensureGroup
  split
  · rfl
  · rw [alGet?_append, alGet?_singleton_ne g g2 _ (fun hx => h hx.symm), orElse_none]

theorem ensureGroup_get_self (g : String)
    (gm : List (String × List (String × FileBucket))) :
    alGet? g (ensureGroup g gm) = some ((alGet? g gm).getD []) := by
  unfold ensureGroup
  by_cases hk : alHas g gm = true
  · rw [if_pos hk]
    unfold alHas at hk
    cases hg : alGet? g gm with
    | some fm => simp [hg]
    | none => rw [hg] at hk; simp at hk
  · rw [if_neg hk]
    unfold alHas at hk
    cases hg : alGet? g gm with
    | some fm => rw [hg] at hk; simp at hk
    | none =>
        rw [alGet?_append, hg]
        simp [alGet?]

theorem addToGroup_get_ne (path : String) (fb : FileBucket)
    (gm : List (String × List (String × FileBucket))) (g g2 : String) (h : g ≠ g2) :
    alGet? g (addToGroup path fb gm g2) = alGet? g gm := by
  dsimp only [addToGroup]
  split
  · exact ensureGroup_get_ne g g2 gm h
  · rw [alGet?_alSet_ne g g2 _ _ h]
    exact ensureGroup_get_ne g g2 gm h

theorem addToGroup_get_self_fresh (path : String) (fb : FileBucket)
    (gm : List (String × List (String × FileBucket))) (g : String)
    (hfresh : alHas path ((alGet? g gm).getD []) = false) :
    alGet? g (addToGroup path fb gm g) =
      some (((alGet? g gm).getD []) ++ [(path, fb)]) := by
  dsimp only [addToGroup]
  have hself := ensureGroup_get_self g gm
  split
  · rename_i hp
    rw [hself] at hp
    simp only [Option.getD_some] at hp
    rw [hp] at hfresh
    simp at hfresh
  · rw [alGet?_alSet_self, hself]
    simp

theorem addToGroup_get_self_extends (path : String) (fb : FileBucket)
    (gm : List (String × List (String × FileBucket))) (g : String) :
    ∃ extra, (alGet? g (addToGroup path fb gm g)).getD [] =
        ((alGet? g gm).getD []) ++ extra ∧
      ∀ q ∈ extra, q = (path, fb) := by
  dsimp only [addToGroup]
  have hself := ensureGroup_get_self g gm
  split
  · exact ⟨[], by rw [hself]; simp, by simp⟩
  · refine ⟨[(path, fb)], ?_, by simp⟩
    rw [alGet?_alSet_self, hself]
    simp

theorem addToGroup_has_self (path : String) (fb : FileBucket)
    (gm : List (String × List (String × FileBucket))) (g : String) :
    alHas g (addToGroup path fb gm g) = true := by
  dsimp only [addToGroup, alHas]
  have hself := ensureGroup_get_self g gm
  split
  · rw [hself]; rfl
  · rw [alGet?_alSet_self]; rfl

theorem addToGroup_has_ne (path : String) (fb : FileBucket)
    (gm : List (String × List (String × FileBucket))) (g g2 : String) (h : g ≠ g2) :
    alHas g (addToGroup path fb gm g2) = alHas g gm := by
  unfold alHas
  rw [addToGroup_get_ne path fb gm g g2 h]

/-! ### Folding `addToGroup` over the group names -/

theorem foldl_addToGroup_get_notmem (path : String) (fb : FileBucket) (gs : List String)
    (g : String) (hg : g ∉ gs) :
    ∀ gm, alGet? g (gs.foldl (addToGroup path fb) gm) = alGet? g gm := by
  induction gs with
  | nil => intro gm; rfl
  | cons g2 gs ih =>
      intro gm
      have hne : g ≠ g2 := fun hx => hg (hx ▸ List.mem_cons_self g2 gs)
      rw [List.foldl_cons, ih (fun hx => hg (List.mem_cons_of_mem g2 hx)),
        addToGroup_get_ne path fb gm g g2 hne]

theorem foldl_addToGroup_get (path : String) (fb : FileBucket) (gs : List String)
    (g : String) :
    ∀ gm, gs.Nodup → alHas path ((alGet? g gm).getD []) = false →
      alGet? g (gs.foldl (addToGroup path fb) gm) =
        (if g ∈ gs then some (((alGet? g gm).getD []) ++ [(path, fb)])
         else alGet? g gm) := by
  induction gs with
  | nil =>
      intro gm _ _
      simp
  | cons g2 gs ih =>
      intro gm hnd hfresh
      rcases List.nodup_cons.mp hnd with ⟨hg2, hnd'⟩
      rw [List.foldl_cons]
      by_cases he : g = g2
      · subst he
        rw [foldl_addToGroup_get_notmem path fb gs g hg2,
          addToGroup_get_self_fresh path fb gm g hfresh]
        simp
      · rw [ih (addToGroup path fb gm g2) hnd'
            (by rw [addToGroup_get_ne path fb gm g g2 he]; exact hfresh),
          addToGroup_get_ne path fb gm g g2 he]
        by_cases hmem : g ∈ gs
        · simp [hmem, he]
        · simp [hmem, he]

theorem foldl_addToGroup_extends (path : String) (fb : FileBucket) (gs : List String)
    (g : String) :
    ∀ gm, ∃ extra, (alGet? g (gs.foldl (addToGroup path fb) gm)).getD [] =
        ((alGet? g gm).getD []) ++ extra ∧ ∀ q ∈ extra, q = (path, fb) := by
  induction gs with
  | nil => intro gm; exact ⟨[], by simp, by simp⟩
  | cons g2 gs ih =>
      intro gm
      rw [List.foldl_cons]
      obtain ⟨extra, hx, hq⟩ := ih (addToGroup path fb gm g2)
      by_cases he : g = g2
      · subst he
        obtain ⟨extra0, hx0, hq0⟩ := addToGroup_get_self_extends path fb gm g
        refine ⟨extra0 ++ extra, ?_, ?_⟩
        · rw [hx, hx0, List.append_assoc]
        · intro q hqmem
          rcases List.mem_append.mp hqmem with hm | hm
          · exact hq0 q hm
          · exact hq q hm
      · refine ⟨extra, ?_, hq⟩
        rw [hx, addToGroup_get_ne path fb gm g g2 he]

theorem foldl_addToGroup_has (path : String) (fb : FileBucket) (gs : List String)
    (g : String) :
    ∀ gm, alHas g (gs.foldl (addToGroup path fb) gm) =
      (alHas g gm || decide (g ∈ gs)) := by
  induction gs with
  | nil => intro gm; simp
  | cons g2 gs ih =>
      intro gm
      rw [List.foldl_cons, ih (addToGroup path fb gm g2)]
      by_cases he : g = g2
      · subst he
        simp [addToGroup_has_self path fb gm g]
      · rw [addToGroup_has_ne path fb gm g g2 he]
        simp [he]


/-! ### Per-file step lemmas for `scanTasks` -/

theorem namesOf_of_no_match (compiled : List MatchRule) (f : ScanFile)
    (h : (matchedRules f.path compiled).isEmpty = true) :
    namesOf compiled f = [] := by
  unfold namesOf groupNamesOf
  rw [List.isEmpty_iff.mp h]
  rfl

theorem scanStep_groupsMap (compiled : List MatchRule) (hg : Bool) (acc : ScanAcc)
    (f : ScanFile) :
    (scanStep compiled hg acc f).groupsMap =
      (if (matchedRules f.path compiled).isEmpty = true then acc.groupsMap
       else if (parseFile f.path f.lines).1.isEmpty = true then acc.groupsMap
       else if hg then
         (groupNamesOf (matchedRules f.path compiled)).foldl
           (addToGroup f.path (mkFileBucket f)) acc.groupsMap
       else acc.groupsMap) := by
  by_cases hm : (matchedRules f.path compiled).isEmpty = true
  · simp [scanStep, hm]
  · by_cases he : (parseFile f.path f.lines).1.isEmpty = true
    · simp [scanStep, addFileToGroups, hm, he]
    · cases hg with
      | true => simp [scanStep, addFileToGroups, hm, he, mkFileBucket, entriesOf]
      | false => simp [scanStep, addFileToGroups, hm, he]

theorem scanStep_flatFiles (compiled : List MatchRule) (hg : Bool) (acc : ScanAcc)
    (f : ScanFile) :
    (scanStep compiled hg acc f).flatFiles =
      (if (matchedRules f.path compiled).isEmpty = true then acc.flatFiles
       else if (parseFile f.path f.lines).1.isEmpty = true then acc.flatFiles
       else if hg then acc.flatFiles
       else if alHas f.path acc.flatFiles then acc.flatFiles
       else acc.flatFiles ++ [(f.path, mkFileBucket f)]) := by
  by_cases hm : (matchedRules f.path compiled).isEmpty = true
  · simp [scanStep, hm]
  · by_cases he : (parseFile f.path f.lines).1.isEmpty = true
    · simp [scanStep, addFileToGroups, hm, he]
    · cases hg with
      | true => simp [scanStep, addFileToGroups, hm, he]
      | false =>
          by_cases hh : alHas f.path acc.flatFiles = true
          · simp [scanStep, addFileToGroups, hm, he, hh]
          · simp [scanStep, addFileToGroups, hm, he, hh, mkFileBucket, entriesOf]

theorem scanStep_tasksByFile (compiled : List MatchRule) (hg : Bool) (acc : ScanAcc)
    (f : ScanFile) :
    (scanStep compiled hg acc f).tasksByFile =
      (if (matchedRules f.path compiled).isEmpty = true then acc.tasksByFile
       else if (parseFile f.path f.lines).1.isEmpty = true then acc.tasksByFile
       else alSet f.path (parseFile f.path f.lines).1 acc.tasksByFile) := by
  by_cases hm : (matchedRules f.path compiled).isEmpty = true
  · simp [scanStep, hm]
  · by_cases he : (parseFile f.path f.lines).1.isEmpty = true
    · simp [scanStep, addFileToGroups, hm, he]
    · cases hg with
      | true => simp [scanStep, addFileToGroups, hm, he]
      | false =>
          by_cases hh : alHas f.path acc.flatFiles = true
          · simp [scanStep, addFileToGroups, hm, he, hh]
          · simp [scanStep, addFileToGroups, hm, he, hh]

theorem scanStep_groupsMap_get (compiled : List MatchRule) (acc : ScanAcc)
    (f : ScanFile) (g : String)
    (hfresh : alHas f.path ((alGet? g acc.groupsMap).getD []) = false) :
    alGet? g (scanStep compiled true acc f).groupsMap =
      (if entriesOf f ≠ [] ∧ g ∈ namesOf compiled f then
        some (((alGet? g acc.groupsMap).getD []) ++ [(f.path, mkFileBucket f)])
       else alGet? g acc.groupsMap) := by
  rw [scanStep_groupsMap]
  by_cases hm : (matchedRules f.path compiled).isEmpty = true
  · rw [if_pos hm, if_neg (by simp [namesOf_of_no_match compiled f hm])]
  · rw [if_neg hm]
    by_cases he : (parseFile f.path f.lines).1.isEmpty = true
    · have hempty : entriesOf f = [] := List.isEmpty_iff.mp he
      rw [if_pos he, if_neg (by simp [hempty])]
    · have hne : entriesOf f ≠ [] := fun hx => he (by simp [entriesOf] at hx; simp [hx])
      have hnodup : (groupNamesOf (matchedRules f.path compiled)).Nodup :=
        dedupFirst_nodup _
      rw [if_neg he, if_pos rfl,
        foldl_addToGroup_get f.path (mkFileBucket f) _ g acc.groupsMap hnodup hfresh]
      by_cases hmem : g ∈ namesOf compiled f
      · have hmem2 : g ∈ groupNamesOf (matchedRules f.path compiled) := hmem
        rw [if_pos hmem2, if_pos ⟨hne, hmem⟩]
      · have hmem2 : g ∉ groupNamesOf (matchedRules f.path compiled) := hmem
        rw [if_neg hmem2, if_neg (by simp [hmem])]

theorem scanStep_groupsMap_has (compiled : List MatchRule) (acc : ScanAcc)
    (f : ScanFile) (g : String) :
    alHas g (scanStep compiled true acc f).groupsMap =
      (alHas g acc.groupsMap ||
        (decide (entriesOf f ≠ []) && decide (g ∈ namesOf compiled f))) := by
  rw [scanStep_groupsMap]
  by_cases hm : (matchedRules f.path compiled).isEmpty = true
  · rw [if_pos hm]
    simp [namesOf_of_no_match compiled f hm]
  · rw [if_neg hm]
    by_cases he : (parseFile f.path f.lines).1.isEmpty = true
    · have hempty : entriesOf f = [] := List.isEmpty_iff.mp he
      rw [if_pos he]
      simp [hempty]
    · have hne : entriesOf f ≠ [] := fun hx => he (by simp [entriesOf] at hx; simp [hx])
      rw [if_neg he, if_pos rfl,
        foldl_addToGroup_has f.path (mkFileBucket f) _ g acc.groupsMap]
      simp [hne, namesOf]


theorem alHas_append (k : String) (m1 m2 : List (String × α)) :
    alHas k (m1 ++ m2) = (alHas k m1 || alHas k m2) := by
  unfold alHas
  rw [alGet?_append]
  cases alGet? k m1 <;> simp [Option.orElse]

/-! ### Folding `scanStep` over the files -/

theorem scanFold_groupsMap_get (compiled : List MatchRule) (files : List ScanFile)
    (g : String) :
    ∀ acc : ScanAcc, (files.map (fun f => f.path)).Nodup →
      (∀ f ∈ files, alHas f.path ((alGet? g acc.groupsMap).getD []) = false) →
      (alGet? g (files.foldl (scanStep compiled true) acc).groupsMap).getD [] =
        ((alGet? g acc.groupsMap).getD []) ++
          ((files.filter (fun f => decide (entriesOf f ≠ []) &&
            decide (g ∈ namesOf compiled f))).map (fun f => (f.path, mkFileBucket f))) := by
  induction files with
  | nil =>
      intro acc _ _
      simp
  | cons f rest ih =>
      intro acc hnd hfresh
      rw [List.map_cons] at hnd
      rcases List.nodup_cons.mp hnd with ⟨hf, hnd2⟩
      have hstep := scanStep_groupsMap_get compiled acc f g (hfresh f (List.mem_cons_self f rest))
      have hfresh2 : ∀ f2 ∈ rest,
          alHas f2.path ((alGet? g (scanStep compiled true acc f).groupsMap).getD []) = false := by
        intro f2 hf2
        have hne : ¬f.path = f2.path := fun hx =>
          hf (hx ▸ List.mem_map_of_mem (fun x => x.path) hf2)
        rw [hstep]
        split
        · simp only [Option.getD_some]
          rw [alHas_append]
          have h1 := hfresh f2 (List.mem_cons_of_mem f hf2)
          have h2 : alHas f2.path [(f.path, mkFileBucket f)] = false := by
            unfold alHas
            rw [alGet?_singleton_ne f2.path f.path _ hne]
            rfl
          rw [h1, h2]
          rfl
        · exact hfresh f2 (List.mem_cons_of_mem f hf2)
      rw [List.foldl_cons, ih (scanStep compiled true acc f) hnd2 hfresh2]
      have hgd : (alGet? g (scanStep compiled true acc f).groupsMap).getD [] =
          (if entriesOf f ≠ [] ∧ g ∈ namesOf compiled f then
            ((alGet? g acc.groupsMap).getD []) ++ [(f.path, mkFileBucket f)]
           else (alGet? g acc.groupsMap).getD []) := by
        rw [hstep]
        split
        · simp
        · rfl
      rw [hgd]
      by_cases hc : entriesOf f ≠ [] ∧ g ∈ namesOf compiled f
      · rw [if_pos hc, List.filter_cons_of_pos (by simp [hc.1, hc.2]), List.map_cons,
          List.append_assoc, List.singleton_append]
      · rw [if_neg hc, List.filter_cons_of_neg (by
          simp only [Bool.and_eq_true, decide_eq_true_eq]
          intro hx
          exact hc ⟨hx.1, hx.2⟩)]

theorem scanFold_groupsMap_has (compiled : List MatchRule) (files : List ScanFile)
    (g : String) :
    ∀ acc : ScanAcc,
      alHas g (files.foldl (scanStep compiled true) acc).groupsMap =
        (alHas g acc.groupsMap || files.any (fun f => decide (entriesOf f ≠ []) &&
          decide (g ∈ namesOf compiled f))) := by
  induction files with
  | nil =>
      intro acc
      simp
  | cons f rest ih =>
      intro acc
      rw [List.foldl_cons, ih (scanStep compiled true acc f), scanStep_groupsMap_has,
        List.any_cons]
      rw [Bool.or_assoc]

theorem scanFold_flat_prov (compiled : List MatchRule) (hg : Bool) (files : List ScanFile) :
    ∀ acc : ScanAcc, ∀ q ∈ (files.foldl (scanStep compiled hg) acc).flatFiles,
      q ∈ acc.flatFiles ∨ ∃ f ∈ files, q = (f.path, mkFileBucket f) ∧ entriesOf f ≠ [] := by
  induction files with
  | nil =>
      intro acc q hq
      exact Or.inl hq
  | cons f rest ih =>
      intro acc q hq
      rw [List.foldl_cons] at hq
      rcases ih (scanStep compiled hg acc f) q hq with hq2 | ⟨f2, hf2, hq2⟩
      · rw [scanStep_flatFiles] at hq2
        split at hq2
        · exact Or.inl hq2
        · split at hq2
          · exact Or.inl hq2
          · rename_i hmne hpne
            have hne : entriesOf f ≠ [] := fun hx => hpne (by simp [entriesOf] at hx; simp [hx])
            split at hq2
            · exact Or.inl hq2
            · split at hq2
              · exact Or.inl hq2
              · rcases List.mem_append.mp hq2 with hq3 | hq3
                · exact Or.inl hq3
                · simp only [List.mem_singleton] at hq3
                  exact Or.inr ⟨f, List.mem_cons_self f rest, hq3, hne⟩
      · exact Or.inr ⟨f2, List.mem_cons_of_mem f hf2, hq2⟩

theorem scanFold_groups_prov (compiled : List MatchRule) (hg : Bool)
    (files : List ScanFile) :
    ∀ acc : ScanAcc, ∀ g : String, ∀ q,
      q ∈ (alGet? g (files.foldl (scanStep compiled hg) acc).groupsMap).getD [] →
      q ∈ (alGet? g acc.groupsMap).getD [] ∨
        ∃ f ∈ files, q = (f.path, mkFileBucket f) ∧ entriesOf f ≠ [] := by
  induction files with
  | nil =>
      intro acc g q hq
      exact Or.inl hq
  | cons f rest ih =>
      intro acc g q hq
      rw [List.foldl_cons] at hq
      rcases ih (scanStep compiled hg acc f) g q hq with hq2 | ⟨f2, hf2, hq2⟩
      · rw [scanStep_groupsMap] at hq2
        split at hq2
        · exact Or.inl hq2
        · split at hq2
          · exact Or.inl hq2
          · rename_i hmne hpne
            have hne : entriesOf f ≠ [] := fun hx => hpne (by simp [entriesOf] at hx; simp [hx])
            split at hq2
            · obtain ⟨extra, hx, hqall⟩ := foldl_addToGroup_extends f.path (mkFileBucket f)
                (groupNamesOf (matchedRules f.path compiled)) g acc.groupsMap
              rw [hx] at hq2
              rcases List.mem_append.mp hq2 with hq3 | hq3
              · exact Or.inl hq3
              · exact Or.inr ⟨f, List.mem_cons_self f rest, hqall q hq3, hne⟩
            · exact Or.inl hq2
      · exact Or.inr ⟨f2, List.mem_cons_of_mem f hf2, hq2⟩

theorem scanFold_tbf_prov (compiled : List MatchRule) (hg : Bool)
    (files : List ScanFile) :
    ∀ acc : ScanAcc, ∀ p : String,
      alGet? p (files.foldl (scanStep compiled hg) acc).tasksByFile ≠ none →
      alGet? p acc.tasksByFile ≠ none ∨
        ∃ f ∈ files, p = f.path ∧ entriesOf f ≠ [] := by
  induction files with
  | nil =>
      intro acc p hp
      exact Or.inl hp
  | cons f rest ih =>
      intro acc p hp
      rw [List.foldl_cons] at hp
      rcases ih (scanStep compiled hg acc f) p hp with hp2 | ⟨f2, hf2, hp2⟩
      · rw [scanStep_tasksByFile] at hp2
        split at hp2
        · exact Or.inl hp2
        · split at hp2
          · exact Or.inl hp2
          · rename_i hmne hpne
            have hne : entriesOf f ≠ [] := fun hx => hpne (by simp [entriesOf] at hx; simp [hx])
            by_cases hpf : p = f.path
            · exact Or.inr ⟨f, List.mem_cons_self f rest, hpf, hne⟩
            · rw [alGet?_alSet_ne p f.path _ _ hpf] at hp2
              exact Or.inl hp2
      · exact Or.inr ⟨f2, List.mem_cons_of_mem f hf2, hp2⟩


/-! ### C10: documents without task lines are absent from the scan output -/

/-- C10: a document with zero task lines (whether or not it matches rules)
contributes no `FileBucket` to any emitted bucket — flat or grouped mode
alike — and no entry in the `tasksByFile` map; only documents containing at
least one task line appear in the scan output. -/
theorem zero_task_doc_excluded (compiled : List MatchRule) (files : List ScanFile)
    (p : String) (hp : ∀ f ∈ files, f.path = p → entriesOf f = []) :
    (∀ gb ∈ (scanTasks compiled files).groups, ∀ fb ∈ gb.files, fb.filePath ≠ p) ∧
    alGet? p (scanTasks compiled files).tasksByFile = none := by
  unfold scanTasks
  split
  · exact ⟨fun gb hgb => by simp at hgb, rfl⟩
  · constructor
    · intro gb hgb fb hfb
      simp only at hgb
      unfold buildGroupBuckets at hgb
      split at hgb
      · -- flat mode
        simp only [List.mem_singleton] at hgb
        subst hgb
        have hfb2 : fb ∈ ((files.foldl (scanStep compiled (hasGroupsOf compiled))
            emptyAcc).flatFiles).map (fun kv => kv.2) :=
          (sortByKey_perm (fun fb => fb.fileName) _).subset hfb
        rcases List.mem_map.mp hfb2 with ⟨q, hq, rfl⟩
        rcases scanFold_flat_prov compiled (hasGroupsOf compiled) files emptyAcc q hq with
          hq2 | ⟨f, hf, hq2, hne⟩
        · simp [emptyAcc] at hq2
        · intro hpp
          rw [hq2] at hpp
          exact hne (hp f hf (by simpa [mkFileBucket] using hpp))
      · -- grouped mode
        rcases List.mem_map.mp hgb with ⟨gName, _hg, rfl⟩
        have hfb2 : fb ∈ ((alGet? gName (files.foldl
            (scanStep compiled (hasGroupsOf compiled)) emptyAcc).groupsMap).getD []).map
            (fun kv => kv.2) :=
          (sortByKey_perm (fun fb => fb.fileName) _).subset hfb
        rcases List.mem_map.mp hfb2 with ⟨q, hq, rfl⟩
        rcases scanFold_groups_prov compiled (hasGroupsOf compiled) files emptyAcc
            gName q hq with hq2 | ⟨f, hf, hq2, hne⟩
        · simp [emptyAcc, alGet?] at hq2
        · intro hpp
          rw [hq2] at hpp
          exact hne (hp f hf (by simpa [mkFileBucket] using hpp))
    · simp only
      by_cases hnone : alGet? p (files.foldl (scanStep compiled (hasGroupsOf compiled))
          emptyAcc).tasksByFile = none
      · exact hnone
      · exfalso
        rcases scanFold_tbf_prov compiled (hasGroupsOf compiled) files emptyAcc p hnone with
          h2 | ⟨f, hf, hpp, hne⟩
        · exact h2 rfl
        · exact hne (hp f hf hpp.symm)

/-- C10 witness: one rule matching everything, one document with no task
lines. -/
theorem zero_task_doc_excluded_witness :
    (∀ f ∈ [({ path := "a.md", lines := [strLine "hello"] } : ScanFile)],
      f.path = "a.md" → entriesOf f = []) ∧
    ((∀ gb ∈ (scanTasks [{ name := "A", test := fun _ => true }]
        [{ path := "a.md", lines := [strLine "hello"] }]).groups,
      ∀ fb ∈ gb.files, fb.filePath ≠ "a.md") ∧
     alGet? "a.md" (scanTasks [{ name := "A", test := fun _ => true }]
        [{ path := "a.md", lines := [strLine "hello"] }]).tasksByFile = none) :=
  ⟨by decide,
    zero_task_doc_excluded [{ name := "A", test := fun _ => true }]
      [{ path := "a.md", lines := [strLine "hello"] }] "a.md" (by decide)⟩


theorem count_path_filter (P : ScanFile → Bool) (files : List ScanFile) :
    ∀ f ∈ files, (files.map (fun x => x.path)).Nodup →
      ((files.filter P).map (fun x => x.path)).count f.path =
        (if P f = true then 1 else 0) := by
  induction files with
  | nil =>
      intro f hf _
      simp at hf
  | cons f0 rest ih =>
      intro f hf hnd
      rw [List.map_cons] at hnd
      rcases List.nodup_cons.mp hnd with ⟨h0, hnd2⟩
      rcases List.mem_cons.mp hf with rfl | hf2
      · have hcount0 : ((rest.filter P).map (fun x => x.path)).count f.path = 0 := by
          rw [List.count_eq_zero]
          intro hmem
          rcases List.mem_map.mp hmem with ⟨x, hx, hxeq⟩
          exact h0 (hxeq ▸ List.mem_map_of_mem (fun x => x.path) (List.mem_of_mem_filter hx))
        by_cases hP : P f = true
        · rw [List.filter_cons_of_pos hP, List.map_cons, List.count_cons_self,
            hcount0, if_pos hP]
        · rw [List.filter_cons_of_neg (by simpa using hP), hcount0, if_neg hP]
      · have hne : f.path ≠ f0.path := fun hx =>
          h0 (hx ▸ List.mem_map_of_mem (fun x => x.path) hf2)
        by_cases hP0 : P f0 = true
        · rw [List.filter_cons_of_pos hP0, List.map_cons,
            List.count_cons_of_ne hne, ih f hf2 hnd2]
        · rw [List.filter_cons_of_neg (by simpa using hP0), ih f hf2 hnd2]

/-- The conclusion of the amended claim C7 about grouped mode: every
document matched by at least one rule AND containing at least one task line
appears exactly once in the file set of each distinct non-empty group name
among its matching rules, and in no other group; a document matched by zero
rules (or with zero task lines) appears in no bucket; a group bucket exists
exactly for the group names carried by such documents; group buckets are
sorted by name and the files inside each bucket are sorted by display
name. -/
def GroupedScanSpec (compiled : List MatchRule) (files : List ScanFile) : Prop :=
  (∀ gb ∈ (scanTasks compiled files).groups, ∀ f ∈ files,
    (gb.files.map (fun fb => fb.filePath)).count f.path =
      (if entriesOf f ≠ [] ∧ gb.name ∈ namesOf compiled f then 1 else 0)) ∧
  (∀ gb ∈ (scanTasks compiled files).groups, ∀ fb ∈ gb.files,
    ∃ f ∈ files, fb = mkFileBucket f ∧ entriesOf f ≠ []) ∧
  (∀ g : String, (∃ gb ∈ (scanTasks compiled files).groups, gb.name = g) ↔
    (∃ f ∈ files, entriesOf f ≠ [] ∧ g ∈ namesOf compiled f)) ∧
  List.Pairwise (fun a b => a.name ≤ b.name) (scanTasks compiled files).groups ∧
  (∀ gb ∈ (scanTasks compiled files).groups,
    List.Pairwise (fun a b => a.fileName ≤ b.fileName) gb.files)

/-- C7 (amended): in grouped mode, over files with pairwise-distinct paths,
every document matched by at least one rule and containing at least one task
line is inserted exactly once into the file set of each distinct non-empty
group name among its matching rules and appears in no other group; a document
matched by zero rules — or containing zero task lines — appears in no bucket;
group buckets are sorted by name and files within each bucket by display
name. -/
theorem grouped_scan_spec (compiled : List MatchRule) (files : List ScanFile)
    (hg : hasGroupsOf compiled = true) (hnd : (files.map (fun f => f.path)).Nodup) :
    GroupedScanSpec compiled files := by
  unfold GroupedScanSpec scanTasks
  split
  · rename_i hempty
    rcases Bool.or_eq_true_iff.mp hempty with hce | hfe
    · exfalso
      rw [List.isEmpty_iff.mp hce] at hg
      simp [hasGroupsOf] at hg
    · rw [List.isEmpty_iff.mp hfe]
      refine ⟨by simp, by simp, ?_, by simp, by simp⟩
      intro g
      simp
  · rename_i hcond
    rw [hg]
    simp only
    have hF1 : ∀ g : String,
        (alGet? g (files.foldl (scanStep compiled true) emptyAcc).groupsMap).getD [] =
          (files.filter (fun f => decide (entriesOf f ≠ []) &&
            decide (g ∈ namesOf compiled f))).map (fun f => (f.path, mkFileBucket f)) := by
      intro g
      have hx := scanFold_groupsMap_get compiled files g emptyAcc hnd
        (by intro f hf; simp [emptyAcc, alGet?, alHas])
      simpa [emptyAcc, alGet?] using hx
    have hF2 : ∀ g : String,
        alHas g (files.foldl (scanStep compiled true) emptyAcc).groupsMap =
          files.any (fun f => decide (entriesOf f ≠ []) && decide (g ∈ namesOf compiled f)) := by
      intro g
      have hx := scanFold_groupsMap_has compiled files g emptyAcc
      simpa [emptyAcc, alGet?, alHas] using hx
    unfold buildGroupBuckets
    rw [if_neg (by simp)]
    refine ⟨?_, ?_, ?_, ?_, ?_⟩
    · -- counts
      intro gb hgb f hf
      rcases List.mem_map.mp hgb with ⟨gName, _hgmem, rfl⟩
      simp only
      have hperm : List.Perm
          (sortByKey (fun fb => fb.fileName)
            (((alGet? gName (files.foldl (scanStep compiled true) emptyAcc).groupsMap).getD
              []).map (fun kv => kv.2)))
          (((alGet? gName (files.foldl (scanStep compiled true) emptyAcc).groupsMap).getD
              []).map (fun kv => kv.2)) := sortByKey_perm _ _
      rw [(hperm.map (fun fb => fb.filePath)).count_eq f.path, hF1 gName]
      have hvals : List.map (fun fb => fb.filePath)
          (List.map (fun kv : String × FileBucket => kv.2)
            (List.map (fun f : ScanFile => (f.path, mkFileBucket f))
              (files.filter (fun f => decide (entriesOf f ≠ []) &&
                decide (gName ∈ namesOf compiled f))))) =
          List.map (fun x : ScanFile => x.path)
            (files.filter (fun f => decide (entriesOf f ≠ []) &&
              decide (gName ∈ namesOf compiled f))) := by
        rw [List.map_map, List.map_map]
        rfl
      rw [hvals, count_path_filter _ files f hf hnd]
      by_cases hc : entriesOf f ≠ [] ∧ gName ∈ namesOf compiled f
      · rw [if_pos (by simp [hc.1, hc.2]), if_pos hc]
      · rw [if_neg (by
            simp only [Bool.and_eq_true, decide_eq_true_eq]
            intro hx
            exact hc ⟨hx.1, hx.2⟩),
          if_neg hc]
    · -- provenance
      intro gb hgb fb hfb
      rcases List.mem_map.mp hgb with ⟨gName, _hgmem, rfl⟩
      simp only at hfb
      have hfb2 := (sortByKey_perm (fun fb : FileBucket => fb.fileName) _).subset hfb
      rw [hF1 gName, List.map_map] at hfb2
      rcases List.mem_map.mp hfb2 with ⟨f, hfmem, rfl⟩
      rcases List.mem_filter.mp hfmem with ⟨hfin, hP⟩
      rcases Bool.and_eq_true_iff.mp hP with ⟨hP1, _⟩
      exact ⟨f, hfin, rfl, of_decide_eq_true hP1⟩
    · -- existence iff
      intro g
      constructor
      · rintro ⟨gb, hgb, rfl⟩
        rcases List.mem_map.mp hgb with ⟨gName, hgmem, rfl⟩
        simp only
        have hkey : gName ∈ ((files.foldl (scanStep compiled true) emptyAcc).groupsMap).map
            (fun kv => kv.1) :=
          (sortByKey_perm (fun s : String => s) _).subset hgmem
        have hhas := alGet?_isSome_of_key_mem gName _ hkey
        have hany : files.any (fun f => decide (entriesOf f ≠ []) &&
            decide (gName ∈ namesOf compiled f)) = true := by
          rw [← hF2 gName]
          exact hhas
        rcases List.any_eq_true.mp hany with ⟨f, hfin, hPf⟩
        rcases Bool.and_eq_true_iff.mp hPf with ⟨h1, h2⟩
        exact ⟨f, hfin, of_decide_eq_true h1, of_decide_eq_true h2⟩
      · rintro ⟨f, hfin, hne, hmem⟩
        have hany : files.any (fun f => decide (entriesOf f ≠ []) &&
            decide (g ∈ namesOf compiled f)) = true :=
          List.any_eq_true.mpr ⟨f, hfin, by simp [hne, hmem]⟩
        have hhas : alHas g (files.foldl (scanStep compiled true) emptyAcc).groupsMap = true := by
          rw [hF2 g, hany]
        have hkey := key_mem_of_alGet?_isSome g _ hhas
        have hkey2 : g ∈ sortByKey (fun s => s)
            (((files.foldl (scanStep compiled true) emptyAcc).groupsMap).map
              (fun kv => kv.1)) :=
          (sortByKey_perm (fun s : String => s) _).mem_iff.mpr hkey
        exact ⟨_, List.mem_map_of_mem _ hkey2, rfl⟩
    · -- groups sorted by name
      refine List.Pairwise.map _ ?_ (sortByKey_sorted (fun s => s) _)
      intro a b hab
      exact hab
    · -- files sorted by display name
      intro gb hgb
      rcases List.mem_map.mp hgb with ⟨gName, _hgmem, rfl⟩
      exact sortByKey_sorted _ _


/-- C7 counterexample: a document matched by a rule with the non-empty group
name "A" but containing no task lines is inserted into NO group's file set —
the grouped scan emits no buckets at all — although the claim as stated
requires it to appear exactly once under "A". -/
theorem grouped_zero_task_counterexample :
    (matchedRules "Proj/x.md" [{ name := "A", test := fun _ => true }]).length = 1 ∧
    "A" ∈ namesOf [{ name := "A", test := fun _ => true }]
      ({ path := "Proj/x.md", lines := [strLine "prose"] } : ScanFile) ∧
    (scanTasks [{ name := "A", test := fun _ => true }]
      [{ path := "Proj/x.md", lines := [strLine "prose"] }]).groups = [] := by
  refine ⟨?_, ?_, ?_⟩
  · decide
  · decide
  · decide

/-- C7 witness: two distinct named rules matching one task-bearing file. -/
theorem grouped_scan_spec_witness :
    (hasGroupsOf [{ name := "A", test := fun _ => true },
        { name := "B", test := fun _ => true }] = true ∧
      (([({ path := "Proj/x.md", lines := [strLine "- [ ] t"] } : ScanFile)]).map
        (fun f => f.path)).Nodup) ∧
    GroupedScanSpec
      [{ name := "A", test := fun _ => true }, { name := "B", test := fun _ => true }]
      [{ path := "Proj/x.md", lines := [strLine "- [ ] t"] }] :=
  ⟨⟨by decide, by decide⟩,
    grouped_scan_spec
      [{ name := "A", test := fun _ => true }, { name := "B", test := fun _ => true }]
      [{ path := "Proj/x.md", lines := [strLine "- [ ] t"] }] (by decide) (by decide)⟩


end TaskTable
